import Mathlib

/-!
Verification development for the "meanwhile" pregnancy-timeline repository.

The geometry of the layout engines (lane assignment, collapse-under-height-budget,
grid sizing) is embedded over exact rationals (`ℚ`); the source computes with
JS numbers, whose values on the pixel quantities involved coincide with the
exact rational results.  Milestone items are lists, processed in the same
order as the source arrays.  `Math.round` (round half towards positive
infinity) is Mathlib's `round`.
-/

namespace Meanwhile

/-! ## Constants (src/src/constants.ts and the milestone styling constants of
the timeline components) -/

def NUM_MONTHS : ℕ := 9

def ROW_HEIGHT : ℚ := 42

def MILESTONE_PADDING : ℚ := 20

def MILESTONE_GAP : ℚ := 8

def EMOJI_WIDTH : ℚ := 18

def EXPANDED_WIDTH : ℚ := 120

def COLLAPSED_WIDTH : ℚ := 24

/-! ## Calendar math: getMonthStart (src/src/constants.ts lines 4-6)

`Math.round((month * totalDays) / NUM_MONTHS)`. -/

def getMonthStart (month totalDays : ℕ) : ℤ :=
  round (((month * totalDays : ℕ) : ℚ) / ((NUM_MONTHS : ℕ) : ℚ))

/-- Helper: evaluate `round (a / b)` at concrete natural inputs. -/
theorem round_div_eq_of (a b : ℕ) (n : ℤ) (h1 : (n : ℚ) - 1/2 ≤ (a : ℚ) / (b : ℚ))
    (h2 : (a : ℚ) / (b : ℚ) < (n : ℚ) + 1/2) :
    round ((a : ℚ) / (b : ℚ)) = n := by
  rw [round_eq, Int.floor_eq_iff]
  constructor
  · linarith
  · linarith

/-- C6: the 9 pregnancy-month partition boundaries `getMonthStart` start at 0,
end at `totalDays`, are monotone in the month number, and at `totalDays = 280`
evaluate to `[0, 31, 62, 93, 124, 156, 187, 218, 249, 280]`. -/
theorem C6_monthStart_partition :
    (∀ t : ℕ, getMonthStart 0 t = 0 ∧ getMonthStart 9 t = t ∧
      ∀ m : ℕ, getMonthStart m t ≤ getMonthStart (m + 1) t) ∧
    (List.range 10).map (fun k => getMonthStart k 280) =
      [0, 31, 62, 93, 124, 156, 187, 218, 249, 280] := by
  constructor
  · intro t
    refine ⟨?_, ?_, ?_⟩
    · simp [getMonthStart, round_zero]
    · unfold getMonthStart NUM_MONTHS
      have h : ((9 * t : ℕ) : ℚ) / ((9 : ℕ) : ℚ) = (t : ℚ) := by
        rw [mul_comm]
        field_simp
      rw [h, round_natCast]
    · intro m
      unfold getMonthStart
      rw [round_eq, round_eq]
      apply Int.floor_mono
      have hb : (0 : ℚ) ≤ ((NUM_MONTHS : ℕ) : ℚ) := by positivity
      have hnum : ((m * t : ℕ) : ℚ) ≤ (((m + 1) * t : ℕ) : ℚ) := by
        push_cast
        nlinarith [Nat.cast_nonneg (α := ℚ) t, Nat.cast_nonneg (α := ℚ) m]
      have := div_le_div_of_nonneg_right (c := ((NUM_MONTHS : ℕ) : ℚ)) hnum
      gcongr
  · have hr : List.range 10 = [0, 1, 2, 3, 4, 5, 6, 7, 8, 9] := by decide
    have h0 : getMonthStart 0 280 = 0 := by simp [getMonthStart, round_zero]
    have h1 : getMonthStart 1 280 = 31 := by
      unfold getMonthStart NUM_MONTHS
      apply round_div_eq_of <;> norm_num
    have h2 : getMonthStart 2 280 = 62 := by
      unfold getMonthStart NUM_MONTHS
      apply round_div_eq_of <;> norm_num
    have h3 : getMonthStart 3 280 = 93 := by
      unfold getMonthStart NUM_MONTHS
      apply round_div_eq_of <;> norm_num
    have h4 : getMonthStart 4 280 = 124 := by
      unfold getMonthStart NUM_MONTHS
      apply round_div_eq_of <;> norm_num
    have h5 : getMonthStart 5 280 = 156 := by
      unfold getMonthStart NUM_MONTHS
      apply round_div_eq_of <;> norm_num
    have h6 : getMonthStart 6 280 = 187 := by
      unfold getMonthStart NUM_MONTHS
      apply round_div_eq_of <;> norm_num
    have h7 : getMonthStart 7 280 = 218 := by
      unfold getMonthStart NUM_MONTHS
      apply round_div_eq_of <;> norm_num
    have h8 : getMonthStart 8 280 = 249 := by
      unfold getMonthStart NUM_MONTHS
      apply round_div_eq_of <;> norm_num
    have h9 : getMonthStart 9 280 = 280 := by
      unfold getMonthStart NUM_MONTHS
      apply round_div_eq_of <;> norm_num
    rw [hr]
    simp [h0, h1, h2, h3, h4, h5, h6, h7, h8, h9]

/-! ## Grid sizer

Two variants exist in the source.

`WeeklyView` (src/src/components/WeeklyView.tsx lines 142-152):
```
const size = Math.min(maxCellWidth, maxCellHeight);
return { cellSize: Math.max(size, 8),
         labelSize: Math.max(8, Math.min(11, size * 0.4)), ... }
```

`MonthlyView` portrait (src/unnamed/part_002 lines 710-720):
```
const size = Math.min(maxCellWidth, maxCellHeight);
const cellSize = Math.max(Math.floor(size), 8);
return { cellSize, labelSize: Math.max(8, Math.min(11, cellSize * 0.4)), ... }
```
with `maxCellWidth = (availableWidth - gap*(numCols-1))/numCols` and
`maxCellHeight = (availableHeight - gap*(numRows-1))/numRows` in both. -/

def rawCellSize (aW aH : ℚ) (numCols numRows : ℕ) (gap : ℚ) : ℚ :=
  min ((aW - gap * ((numCols : ℚ) - 1)) / (numCols : ℚ))
    ((aH - gap * ((numRows : ℚ) - 1)) / (numRows : ℚ))

def weeklyCellSize (aW aH : ℚ) (numCols numRows : ℕ) (gap : ℚ) : ℚ :=
  max (rawCellSize aW aH numCols numRows gap) 8

def weeklyLabelSize (aW aH : ℚ) (numCols numRows : ℕ) (gap : ℚ) : ℚ :=
  max 8 (min 11 (rawCellSize aW aH numCols numRows gap * (2/5)))

def monthlyCellSize (aW aH : ℚ) (numCols numRows : ℕ) (gap : ℚ) : ℚ :=
  max ((⌊rawCellSize aW aH numCols numRows gap⌋ : ℤ) : ℚ) 8

def monthlyLabelSize (aW aH : ℚ) (numCols numRows : ℕ) (gap : ℚ) : ℚ :=
  max 8 (min 11 (monthlyCellSize aW aH numCols numRows gap * (2/5)))

/-- C8 counterexample: the `WeeklyView` sizer does not floor the
min-of-two-axes value to an integer.  With 10.5 pixels available on each axis
for a single cell and no gap, it returns 10.5, not `max ⌊10.5⌋ 8 = 10`. -/
theorem C8_weekly_not_floored :
    weeklyCellSize (21/2) (21/2) 1 1 0 = 21/2 ∧
    weeklyCellSize (21/2) (21/2) 1 1 0 ≠
      max ((⌊rawCellSize (21/2) (21/2) 1 1 0⌋ : ℤ) : ℚ) 8 := by
  have hraw : rawCellSize (21/2) (21/2) 1 1 0 = 21/2 := by
    unfold rawCellSize
    norm_num
  have hfl : (⌊(21/2 : ℚ)⌋ : ℤ) = 10 := by
    rw [Int.floor_eq_iff] <;> norm_num
  constructor
  · unfold weeklyCellSize
    rw [hraw]
    norm_num
  · unfold weeklyCellSize
    rw [hraw, hfl]
    norm_num

/-- C8 amended: both sizers clamp the min-of-two-axes value below at 8; the
`MonthlyView` sizer floors it to an integer first while the `WeeklyView` sizer
does not; for large available space `WeeklyView` returns the exact unclamped
min and `MonthlyView` its floor; and both derive the label font size as
`clamp(cellSize * 0.4, 8, 11)`. -/
theorem C8_grid_sizer_amended (aW aH : ℚ) (numCols numRows : ℕ) (gap : ℚ) :
    (8 ≤ weeklyCellSize aW aH numCols numRows gap ∧
      8 ≤ monthlyCellSize aW aH numCols numRows gap) ∧
    (8 ≤ rawCellSize aW aH numCols numRows gap →
      weeklyCellSize aW aH numCols numRows gap = rawCellSize aW aH numCols numRows gap) ∧
    (8 ≤ ⌊rawCellSize aW aH numCols numRows gap⌋ →
      monthlyCellSize aW aH numCols numRows gap
        = ((⌊rawCellSize aW aH numCols numRows gap⌋ : ℤ) : ℚ)) ∧
    weeklyLabelSize aW aH numCols numRows gap
      = max 8 (min 11 (weeklyCellSize aW aH numCols numRows gap * (2/5))) ∧
    monthlyLabelSize aW aH numCols numRows gap
      = max 8 (min 11 (monthlyCellSize aW aH numCols numRows gap * (2/5))) := by
  set r := rawCellSize aW aH numCols numRows gap with hr
  refine ⟨⟨le_max_right _ _, le_max_right _ _⟩, ?_, ?_, ?_, rfl⟩
  · intro h
    exact max_eq_left h
  · intro h
    unfold monthlyCellSize
    rw [← hr]
    apply max_eq_left
    exact_mod_cast h
  · unfold weeklyLabelSize weeklyCellSize
    rw [← hr]
    rcases le_total 8 r with h | h
    · rw [max_eq_left h]
    · rw [max_eq_right h]
      have h1 : r * (2/5) ≤ 16/5 := by linarith
      have h2 : min 11 (r * (2/5)) ≤ 16/5 := le_trans (min_le_right _ _) h1
      have h3 : (min 11 ((8:ℚ) * (2/5))) = 16/5 := by norm_num
      rw [h3]
      rw [max_eq_left (by linarith), max_eq_left (by norm_num)]

/-- C8 witness: at 100x100 available pixels for a single cell with no gap the
raw size is 100, so the amended properties instantiate concretely. -/
theorem C8_grid_sizer_amended_witness :
    8 ≤ weeklyCellSize 100 100 1 1 0 ∧ weeklyCellSize 100 100 1 1 0 = rawCellSize 100 100 1 1 0 :=
  ⟨(C8_grid_sizer_amended 100 100 1 1 0).1.1,
    (C8_grid_sizer_amended 100 100 1 1 0).2.1 (by unfold rawCellSize; norm_num)⟩

/-! ## Landscape collapse engine (src/src/components/WeeklyView.tsx lines 597-757)

Items carry a fixed horizontal pixel center `left`, a current `width`, a
colour flag, an assigned `top` and a `collapsed` flag.  The source type
`LandscapeLayoutInput` is `{left, width, isColoured}`; the core immediately
re-maps every item to `width = expandedWidth, top = 0, collapsed = false`. -/

structure CoreInput where
  left : ℚ
  width : ℚ
  isColoured : Bool
  deriving DecidableEq, Repr

structure LItem where
  left : ℚ
  width : ℚ
  isColoured : Bool
  top : ℚ
  collapsed : Bool
  deriving DecidableEq, Repr

structure LOpts where
  maxHeight : ℚ
  expandedWidth : ℚ
  collapsedWidth : ℚ
  deriving DecidableEq, Repr

/-- `overlapsX` (WeeklyView.tsx lines 598-608): horizontal interval overlap
with the fixed minimum gap, on `left/right = center ± width/2`. -/
def overlapsX (a b : LItem) : Bool :=
  decide (b.left - b.width / 2 < a.left + a.width / 2 + MILESTONE_GAP) &&
    decide (a.left - a.width / 2 < b.left + b.width / 2 + MILESTONE_GAP)

/-- Insertion step of a stable ascending sort by a rational key (models the
stable `Array.prototype.sort` with a numeric comparator): a new element goes
after all existing elements with a key not greater than its own. -/
def insertByKey {α : Type} (key : α → ℚ) (x : α) : List α → List α
  | [] => [x]
  | y :: ys => if key x < key y then x :: y :: ys else y :: insertByKey key x ys

/-- Stable ascending sort by a rational key. -/
def sortByKey {α : Type} (key : α → ℚ) (l : List α) : List α :=
  l.foldl (fun acc x => insertByKey key x acc) []

/-- Ascending sort of the occupied `top` positions
(`overlapping.map(o => o.top).sort((a, b) => a - b)`). -/
def sortQ (l : List ℚ) : List ℚ := sortByKey id l

/-- Gap search of `runPass` (WeeklyView.tsx lines 669-685) on the ascending
list of occupied positions: the first gap of at least `ROW_HEIGHT` between
`occupied[k] + ROW_HEIGHT` and `occupied[k+1]`, else after the last. -/
def gapSearch : List ℚ → ℚ
  | [] => ROW_HEIGHT
  | [a] => a + ROW_HEIGHT
  | a :: b :: rest =>
      if ROW_HEIGHT ≤ b - (a + ROW_HEIGHT) then a + ROW_HEIGHT
      else gapSearch (b :: rest)

/-- First available `top` for `base` against the already placed items
(WeeklyView.tsx lines 643-686): position 0 when nothing occupied or the first
occupied position leaves room, otherwise the gap search. -/
def placeTop (placed : List LItem) (base : LItem) : ℚ :=
  match sortQ ((placed.filter (fun o => overlapsX base o)).map (fun o => o.top)) with
  | [] => 0
  | a :: rest => if ROW_HEIGHT ≤ a then 0 else gapSearch (a :: rest)

/-- One lane-assignment pass (`runPass`, WeeklyView.tsx lines 637-694):
re-places every item in list order against the items before it and returns the
new list together with `maxTop`, the maximum of `top + ROW_HEIGHT`. -/
def runPassAux : List LItem → List LItem → ℚ → List LItem × ℚ
  | placed, [], maxTop => (placed, maxTop)
  | placed, base :: rest, maxTop =>
      let t := placeTop placed base
      let base' := { base with top := t }
      runPassAux (placed ++ [base']) rest
        (if maxTop < t + ROW_HEIGHT then t + ROW_HEIGHT else maxTop)

def runPass (layouts : List LItem) : List LItem × ℚ :=
  runPassAux [] layouts 0

/-- Maximum `top` over a list of items (`Math.max(...layouts.map(ms => ms.top))`,
0 for an empty list, which the source never queries). -/
def maxTopOf : List LItem → ℚ
  | [] => 0
  | x :: xs => xs.foldl (fun m y => max m y.top) x.top

/-- Candidate predicate of `findCandidate` (WeeklyView.tsx lines 705-745): an
expanded item that horizontally overlaps some item at the topmost position. -/
def isCollapseCandidate (layouts : List LItem) (topmost : ℚ) (ms : LItem) : Bool :=
  !ms.collapsed && layouts.any (fun a => decide (a.top = topmost) && overlapsX a ms)

/-- Index of the first item with minimal `left` among those satisfying `pred`
(the `findLeftmost` scan keeps the earliest item on ties since it uses a
strict comparison).  Returns the index together with the minimal `left`. -/
def minLeftP (pred : LItem → Bool) : List LItem → Option (ℕ × ℚ)
  | [] => none
  | x :: xs =>
      let r := (minLeftP pred xs).map (fun p => (p.1 + 1, p.2))
      if pred x then
        match r with
        | none => some (0, x.left)
        | some (j, m) => if x.left ≤ m then some (0, x.left) else some (j, m)
      else r

/-- `findCandidate` (WeeklyView.tsx lines 705-745), returning the index of the
chosen item: among expanded items overlapping an item at the topmost position,
a non-coloured one before a coloured one, leftmost within each group.  (The
source iterates a JS `Set` built in `(atTop, expanded)` insertion order and
picks the first strict-minimum; order only matters between candidates tying on
`left` within the same colour group, and this embedding breaks such ties by
list position.) -/
def findCandidateIdx (layouts : List LItem) : Option ℕ :=
  if layouts.all (fun ms => ms.collapsed) then none
  else
    match minLeftP
        (fun ms => isCollapseCandidate layouts (maxTopOf layouts) ms && !ms.isColoured)
        layouts with
    | some p => some p.1
    | none =>
        (minLeftP
          (fun ms => isCollapseCandidate layouts (maxTopOf layouts) ms && ms.isColoured)
          layouts).map (fun p => p.1)

/-- Replace the element at index `i` (the source mutates the candidate object
in place). -/
def modifyIdx {α : Type} (f : α → α) : ℕ → List α → List α
  | _, [] => []
  | 0, x :: xs => f x :: xs
  | n + 1, x :: xs => x :: modifyIdx f n xs

/-- Collapse the chosen candidate (`candidate.collapsed = true;
candidate.width = collapsedWidth`, WeeklyView.tsx lines 752-753). -/
def collapseAt (opts : LOpts) (layouts : List LItem) (i : ℕ) : List LItem :=
  modifyIdx (fun ms => { ms with collapsed := true, width := opts.collapsedWidth }) i layouts

/-- Result of the collapse loop.  `passes` counts the `runPass` invocations;
the source does not return it, it instruments the iteration count for the
bound stated in the specification. -/
structure CollapseResult where
  layouts : List LItem
  ok : Bool
  passes : ℕ
  deriving Repr

/-- The collapse loop (WeeklyView.tsx lines 696-756), with the source's
iteration bound `n + 2` as fuel: run a pass; if it fits, done with `ok`;
otherwise collapse the chosen candidate and retry, or stop with `ok = false`
when there is no candidate; when the iteration bound runs out the current
(just collapsed) layouts are returned with `ok = false`. -/
def collapseLoop (opts : LOpts) : ℕ → List LItem → CollapseResult
  | 0, layouts => ⟨layouts, false, 0⟩
  | fuel + 1, layouts =>
      if (runPass layouts).2 ≤ opts.maxHeight then ⟨(runPass layouts).1, true, 1⟩
      else
        match findCandidateIdx (runPass layouts).1 with
        | none => ⟨(runPass layouts).1, false, 1⟩
        | some c =>
            ⟨(collapseLoop opts fuel (collapseAt opts (runPass layouts).1 c)).layouts,
              (collapseLoop opts fuel (collapseAt opts (runPass layouts).1 c)).ok,
              (collapseLoop opts fuel (collapseAt opts (runPass layouts).1 c)).passes + 1⟩

/-- Initial layouts of the core (WeeklyView.tsx lines 623-633): sort by `left`
and re-map every item to the uniform expanded width with `top = 0`,
`collapsed = false`.  Note the input `width` is discarded here. -/
def coreInit (opts : LOpts) (unsorted : List CoreInput) : List LItem :=
  (sortByKey (fun m : CoreInput => m.left) unsorted).map
    (fun ms => ⟨ms.left, opts.expandedWidth, ms.isColoured, 0, false⟩)

/-- `layoutLandscapeMilestonesCore` (WeeklyView.tsx lines 615-757). -/
def layoutLandscapeMilestonesCore (unsorted : List CoreInput) (opts : LOpts) :
    List LItem × Bool :=
  ((collapseLoop opts (unsorted.length + 2) (coreInit opts unsorted)).layouts,
    (collapseLoop opts (unsorted.length + 2) (coreInit opts unsorted)).ok)

/-! ### Facts about the stable key sort -/

theorem mem_insertByKey {α : Type} (key : α → ℚ) (a x : α) :
    ∀ l : List α, x ∈ insertByKey key a l ↔ x = a ∨ x ∈ l := by
  intro l
  induction l with
  | nil => simp [insertByKey]
  | cons y ys ih =>
    unfold insertByKey
    split
    · simp
    · simp only [List.mem_cons, ih]
      tauto

theorem length_insertByKey {α : Type} (key : α → ℚ) (a : α) :
    ∀ l : List α, (insertByKey key a l).length = l.length + 1 := by
  intro l
  induction l with
  | nil => simp [insertByKey]
  | cons y ys ih =>
    unfold insertByKey
    split
    · simp
    · simp [ih]

theorem pairwise_insertByKey {α : Type} (key : α → ℚ) (a : α) :
    ∀ l : List α, List.Pairwise (fun x y => key x ≤ key y) l →
      List.Pairwise (fun x y => key x ≤ key y) (insertByKey key a l) := by
  intro l
  induction l with
  | nil => simp [insertByKey]
  | cons y ys ih =>
    intro h
    rw [List.pairwise_cons] at h
    unfold insertByKey
    split
    · rename_i hlt
      rw [List.pairwise_cons]
      refine ⟨?_, List.pairwise_cons.mpr h⟩
      intro z hz
      rcases List.mem_cons.mp hz with rfl | hz
      · exact le_of_lt hlt
      · exact le_trans (le_of_lt hlt) (h.1 z hz)
    · rename_i hge
      rw [List.pairwise_cons]
      refine ⟨?_, ih h.2⟩
      intro z hz
      rcases (mem_insertByKey key a z ys).mp hz with rfl | hz
      · exact le_of_not_lt hge
      · exact h.1 z hz

theorem sortByKey_foldl_mem {α : Type} (key : α → ℚ) (x : α) :
    ∀ (l acc : List α),
      (x ∈ l.foldl (fun acc y => insertByKey key y acc) acc ↔ x ∈ acc ∨ x ∈ l) := by
  intro l
  induction l with
  | nil => simp
  | cons y ys ih =>
    intro acc
    rw [List.foldl_cons, ih, mem_insertByKey]
    simp only [List.mem_cons]
    tauto

theorem mem_sortByKey {α : Type} (key : α → ℚ) (x : α) (l : List α) :
    x ∈ sortByKey key l ↔ x ∈ l := by
  unfold sortByKey
  rw [sortByKey_foldl_mem]
  simp

theorem sortByKey_foldl_pairwise {α : Type} (key : α → ℚ) :
    ∀ (l acc : List α), List.Pairwise (fun x y => key x ≤ key y) acc →
      List.Pairwise (fun x y => key x ≤ key y)
        (l.foldl (fun acc y => insertByKey key y acc) acc) := by
  intro l
  induction l with
  | nil => simpa using fun acc h => h
  | cons y ys ih =>
    intro acc h
    rw [List.foldl_cons]
    exact ih _ (pairwise_insertByKey key y acc h)

theorem pairwise_sortByKey {α : Type} (key : α → ℚ) (l : List α) :
    List.Pairwise (fun x y => key x ≤ key y) (sortByKey key l) :=
  sortByKey_foldl_pairwise key l [] (by simp)

theorem sortByKey_foldl_length {α : Type} (key : α → ℚ) :
    ∀ (l acc : List α),
      (l.foldl (fun acc y => insertByKey key y acc) acc).length = acc.length + l.length := by
  intro l
  induction l with
  | nil => simp
  | cons y ys ih =>
    intro acc
    rw [List.foldl_cons, ih, length_insertByKey]
    simp only [List.length_cons]
    omega

theorem length_sortByKey {α : Type} (key : α → ℚ) (l : List α) :
    (sortByKey key l).length = l.length := by
  unfold sortByKey
  rw [sortByKey_foldl_length]
  simp

theorem mem_sortQ (x : ℚ) (l : List ℚ) : x ∈ sortQ l ↔ x ∈ l :=
  mem_sortByKey id x l

theorem pairwise_sortQ (l : List ℚ) : List.Pairwise (· ≤ ·) (sortQ l) :=
  pairwise_sortByKey id l

/-! ### Facts about the gap search and item placement -/

theorem ROW_HEIGHT_pos : (0 : ℚ) < ROW_HEIGHT := by norm_num [ROW_HEIGHT]

theorem pairwise_head_le {a : ℚ} {l : List ℚ} (h : List.Pairwise (· ≤ ·) (a :: l)) :
    ∀ x ∈ a :: l, a ≤ x := by
  intro x hx
  rcases List.mem_cons.mp hx with rfl | hx
  · exact le_refl x
  · exact (List.pairwise_cons.mp h).1 x hx

theorem gapSearch_spec :
    ∀ (l : List ℚ) (a : ℚ), List.Pairwise (· ≤ ·) (a :: l) →
      a < gapSearch (a :: l) ∧ ∀ x ∈ a :: l, gapSearch (a :: l) ≠ x := by
  intro l
  induction l with
  | nil =>
    intro a _
    unfold gapSearch
    constructor
    · linarith [ROW_HEIGHT_pos]
    · intro x hx
      rcases List.mem_cons.mp hx with rfl | hx
      · intro h
        nlinarith [ROW_HEIGHT_pos]
      · simp at hx
  | cons b rest ih =>
    intro a hpw
    have hab : a ≤ b := (List.pairwise_cons.mp hpw).1 b (by simp)
    have htail : List.Pairwise (· ≤ ·) (b :: rest) := (List.pairwise_cons.mp hpw).2
    unfold gapSearch
    split
    · rename_i hgap
      constructor
      · linarith [ROW_HEIGHT_pos]
      · intro x hx
        rcases List.mem_cons.mp hx with rfl | hx
        · intro h; nlinarith [ROW_HEIGHT_pos]
        · rcases List.mem_cons.mp hx with rfl | hx
          · intro h; nlinarith [ROW_HEIGHT_pos]
          · have hbx : b ≤ x := (List.pairwise_cons.mp htail).1 x hx
            intro h
            nlinarith [ROW_HEIGHT_pos]
    · rename_i hgap
      obtain ⟨hblt, hne⟩ := ih b htail
      constructor
      · linarith
      · intro x hx
        rcases List.mem_cons.mp hx with rfl | hx
        · intro h; rw [h] at hblt; linarith
        · exact hne x hx

theorem gapSearch_mem_map :
    ∀ (l : List ℚ) (a : ℚ), gapSearch (a :: l) ∈ (a :: l).map (· + ROW_HEIGHT) := by
  intro l
  induction l with
  | nil =>
    intro a
    unfold gapSearch
    simp
  | cons b rest ih =>
    intro a
    unfold gapSearch
    split
    · simp
    · have := ih b
      simp only [List.map_cons, List.mem_cons] at this ⊢
      tauto

/-- The occupied positions a new item must avoid. -/
def occupiedOf (placed : List LItem) (base : LItem) : List ℚ :=
  sortQ ((placed.filter (fun o => overlapsX base o)).map (fun o => o.top))

theorem placeTop_eq_match (placed : List LItem) (base : LItem) :
    placeTop placed base =
      match occupiedOf placed base with
      | [] => 0
      | a :: rest => if ROW_HEIGHT ≤ a then 0 else gapSearch (a :: rest) := rfl

/-- A newly placed item's `top` differs from the `top` of every horizontally
overlapping already placed item. -/
theorem placeTop_avoid (placed : List LItem) (base : LItem) :
    ∀ o ∈ placed, overlapsX base o = true → o.top ≠ placeTop placed base := by
  intro o ho hov
  have hmem : o.top ∈ occupiedOf placed base := by
    unfold occupiedOf
    rw [mem_sortQ]
    exact List.mem_map_of_mem _ (List.mem_filter.mpr ⟨ho, hov⟩)
  have hsorted := pairwise_sortQ ((placed.filter (fun o => overlapsX base o)).map (fun o => o.top))
  rw [placeTop_eq_match]
  rcases hocc : occupiedOf placed base with _ | ⟨a, rest⟩
  · rw [hocc] at hmem
    simp at hmem
  · rw [hocc] at hmem
    have hsorted' : List.Pairwise (· ≤ ·) (a :: rest) := by
      have : occupiedOf placed base =
          sortQ ((placed.filter (fun o => overlapsX base o)).map (fun o => o.top)) := rfl
      rw [← this, hocc] at hsorted
      exact hsorted
    by_cases hc : ROW_HEIGHT ≤ a
    · simp only [if_pos hc]
      have ha := pairwise_head_le hsorted' o.top hmem
      intro h0
      rw [h0] at ha
      exact absurd ha (not_le.mpr (lt_of_lt_of_le ROW_HEIGHT_pos hc))
    · simp only [if_neg hc]
      intro h
      exact (gapSearch_spec rest a hsorted').2 o.top hmem h.symm

/-- A newly placed item's `top` is 0 or `ROW_HEIGHT` above the `top` of some
already placed item. -/
theorem placeTop_structure (placed : List LItem) (base : LItem) :
    placeTop placed base = 0 ∨
      ∃ o ∈ placed, placeTop placed base = o.top + ROW_HEIGHT := by
  rw [placeTop_eq_match]
  rcases hocc : occupiedOf placed base with _ | ⟨a, rest⟩
  · left; rfl
  · by_cases hc : ROW_HEIGHT ≤ a
    · left; simp [hc]
    · right
      simp only [if_neg hc]
      have hmm := gapSearch_mem_map rest a
      obtain ⟨x, hx, hxe⟩ := List.mem_map.mp hmm
      have hx' : x ∈ occupiedOf placed base := by rw [hocc]; exact hx
      unfold occupiedOf at hx'
      rw [mem_sortQ] at hx'
      obtain ⟨o, ho, rfl⟩ := List.mem_map.mp hx'
      exact ⟨o, (List.mem_filter.mp ho).1, hxe.symm⟩

/-! ### Invariants of a lane-assignment pass -/

/-- The fields of an item a pass never changes. -/
def stripTop (x : LItem) : ℚ × ℚ × Bool × Bool :=
  (x.left, x.width, x.isColoured, x.collapsed)

/-- The separation the no-overlap invariant asserts for two items sharing a
lane. -/
def sepQ (a b : LItem) : Prop :=
  (a.width + b.width) / 2 + MILESTONE_GAP ≤ |a.left - b.left|

/-- Lane-sharing items must be separated. -/
def laneSep (a b : LItem) : Prop :=
  a.top = b.top → sepQ a b

theorem sepQ_symm {a b : LItem} (h : sepQ a b) : sepQ b a := by
  unfold sepQ at h ⊢
  rw [abs_sub_comm]
  linarith

theorem sepQ_of_not_overlapsX {a b : LItem} (h : overlapsX a b = false) : sepQ a b := by
  unfold overlapsX at h
  unfold sepQ
  rw [Bool.and_eq_false_iff] at h
  rcases h with h | h
  · rw [decide_eq_false_iff_not, not_lt] at h
    have hd : (a.width + b.width) / 2 + MILESTONE_GAP ≤ b.left - a.left := by linarith
    calc (a.width + b.width) / 2 + MILESTONE_GAP ≤ b.left - a.left := hd
      _ ≤ |a.left - b.left| := by rw [abs_sub_comm]; exact le_abs_self _
  · rw [decide_eq_false_iff_not, not_lt] at h
    have hd : (a.width + b.width) / 2 + MILESTONE_GAP ≤ a.left - b.left := by linarith
    calc (a.width + b.width) / 2 + MILESTONE_GAP ≤ a.left - b.left := hd
      _ ≤ |a.left - b.left| := le_abs_self _

/-- `overlapsX` only reads `left` and `width`, so re-placing the `top` does
not change it. -/
theorem overlapsX_set_top (base o : LItem) (t : ℚ) :
    overlapsX { base with top := t } o = overlapsX base o := rfl

theorem runPassAux_strip :
    ∀ (rest placed : List LItem) (m : ℚ),
      ((runPassAux placed rest m).1).map stripTop
        = placed.map stripTop ++ rest.map stripTop := by
  intro rest
  induction rest with
  | nil => intro placed m; simp [runPassAux]
  | cons base rest ih =>
    intro placed m
    rw [runPassAux, ih]
    simp [stripTop]

theorem runPassAux_length (rest placed : List LItem) (m : ℚ) :
    (runPassAux placed rest m).1.length = placed.length + rest.length := by
  have h := runPassAux_strip rest placed m
  have := congrArg List.length h
  simpa using this

theorem runPassAux_sndMono :
    ∀ (rest placed : List LItem) (m : ℚ), m ≤ (runPassAux placed rest m).2 := by
  intro rest
  induction rest with
  | nil => intro placed m; exact le_refl m
  | cons base rest ih =>
    intro placed m
    rw [runPassAux]
    refine le_trans ?_ (ih _ _)
    split
    · linarith [ROW_HEIGHT_pos]
    · exact le_refl m

theorem runPassAux_maxTop :
    ∀ (rest placed : List LItem) (m : ℚ),
      (∀ x ∈ placed, x.top + ROW_HEIGHT ≤ m) →
      ∀ x ∈ (runPassAux placed rest m).1, x.top + ROW_HEIGHT ≤ (runPassAux placed rest m).2 := by
  intro rest
  induction rest with
  | nil =>
    intro placed m h x hx
    exact h x hx
  | cons base rest ih =>
    intro placed m h
    rw [runPassAux]
    apply ih
    intro x hx
    rcases List.mem_append.mp hx with hx | hx
    · refine le_trans (h x hx) ?_
      split
      · rename_i hlt; linarith
      · exact le_refl m
    · simp only [List.mem_singleton] at hx
      subst hx
      simp only []
      split
      · exact le_refl _
      · rename_i hnlt
        linarith [not_lt.mp hnlt]

theorem runPassAux_pairwise :
    ∀ (rest placed : List LItem) (m : ℚ),
      List.Pairwise laneSep placed →
      List.Pairwise laneSep (runPassAux placed rest m).1 := by
  intro rest
  induction rest with
  | nil => intro placed m h; exact h
  | cons base rest ih =>
    intro placed m h
    rw [runPassAux]
    apply ih
    rw [List.pairwise_append]
    refine ⟨h, List.pairwise_singleton _ _, ?_⟩
    intro o ho b hb
    simp only [List.mem_singleton] at hb
    subst hb
    intro htop
    have hnov : overlapsX base o = false := by
      by_contra hov
      rw [Bool.not_eq_false] at hov
      exact placeTop_avoid placed base o ho hov htop
    have hsep : sepQ base o := sepQ_of_not_overlapsX hnov
    have : sepQ o base := sepQ_symm hsep
    unfold sepQ at this ⊢
    simpa using this

theorem runPassAux_multiples :
    ∀ (rest placed : List LItem) (m : ℚ),
      (∀ x ∈ placed, ∃ k : ℕ, x.top = (k : ℚ) * ROW_HEIGHT) →
      ∀ x ∈ (runPassAux placed rest m).1, ∃ k : ℕ, x.top = (k : ℚ) * ROW_HEIGHT := by
  intro rest
  induction rest with
  | nil => intro placed m h; exact h
  | cons base rest ih =>
    intro placed m h
    rw [runPassAux]
    apply ih
    intro x hx
    rcases List.mem_append.mp hx with hx | hx
    · exact h x hx
    · simp only [List.mem_singleton] at hx
      subst hx
      simp only []
      rcases placeTop_structure placed base with h0 | ⟨o, ho, he⟩
      · exact ⟨0, by rw [h0]; norm_num⟩
      · obtain ⟨k, hk⟩ := h o ho
        refine ⟨k + 1, ?_⟩
        rw [he, hk]
        push_cast
        ring

theorem runPass_strip (l : List LItem) :
    ((runPass l).1).map stripTop = l.map stripTop := by
  unfold runPass
  rw [runPassAux_strip]
  simp

theorem runPass_length (l : List LItem) : (runPass l).1.length = l.length := by
  have := congrArg List.length (runPass_strip l)
  simpa using this

theorem runPass_maxTop (l : List LItem) :
    ∀ x ∈ (runPass l).1, x.top + ROW_HEIGHT ≤ (runPass l).2 := by
  unfold runPass
  apply runPassAux_maxTop
  simp

theorem runPass_pairwise (l : List LItem) : List.Pairwise laneSep (runPass l).1 := by
  unfold runPass
  apply runPassAux_pairwise
  simp

theorem runPass_multiples (l : List LItem) :
    ∀ x ∈ (runPass l).1, ∃ k : ℕ, x.top = (k : ℚ) * ROW_HEIGHT := by
  unfold runPass
  apply runPassAux_multiples
  simp

theorem stripTop_fields {x y : LItem} (h : stripTop x = stripTop y) :
    x.left = y.left ∧ x.width = y.width ∧ x.isColoured = y.isColoured ∧
      x.collapsed = y.collapsed := by
  unfold stripTop at h
  simp only [Prod.mk.injEq] at h
  exact h

theorem runPass_get_strip (l : List LItem) (i : ℕ) (hi : i < l.length)
    (hi2 : i < (runPass l).1.length) :
    stripTop ((runPass l).1.get ⟨i, hi2⟩) = stripTop (l.get ⟨i, hi⟩) := by
  have h := runPass_strip l
  have h1 : stripTop ((runPass l).1.get ⟨i, hi2⟩)
      = ((runPass l).1.map stripTop).get ⟨i, by simpa using hi2⟩ := by
    rw [List.get_map]
  have h2 : (l.map stripTop).get ⟨i, by simpa using hi⟩ = stripTop (l.get ⟨i, hi⟩) := by
    rw [List.get_map]
  rw [h1, ← h2]
  exact List.get_of_eq h _

/-! ### Facts about `modifyIdx` -/

theorem length_modifyIdx {α : Type} (f : α → α) :
    ∀ (i : ℕ) (l : List α), (modifyIdx f i l).length = l.length := by
  intro i l
  induction l generalizing i with
  | nil => cases i <;> simp [modifyIdx]
  | cons x xs ih =>
    cases i with
    | zero => simp [modifyIdx]
    | succ n => simp [modifyIdx, ih]

theorem get_modifyIdx {α : Type} (f : α → α) :
    ∀ (l : List α) (i j : ℕ) (hj : j < l.length) (hj2 : j < (modifyIdx f i l).length),
      (modifyIdx f i l).get ⟨j, hj2⟩
        = if j = i then f (l.get ⟨j, hj⟩) else l.get ⟨j, hj⟩ := by
  intro l
  induction l with
  | nil => intro i j hj; simp at hj
  | cons x xs ih =>
    intro i j hj hj2
    cases i with
    | zero =>
      cases j with
      | zero => simp [modifyIdx]
      | succ k => simp [modifyIdx]
    | succ n =>
      cases j with
      | zero => simp [modifyIdx]
      | succ k =>
        simp only [modifyIdx, List.get_cons_succ]
        rw [ih n k (by simpa using hj) (by simpa [modifyIdx] using hj2)]
        simp [Nat.succ_inj]

theorem mem_modifyIdx {α : Type} (f : α → α) :
    ∀ (i : ℕ) (l : List α) (x : α), x ∈ modifyIdx f i l → x ∈ l ∨ ∃ y ∈ l, x = f y := by
  intro i l
  induction l generalizing i with
  | nil => intro x hx; cases i <;> simp [modifyIdx] at hx
  | cons z zs ih =>
    intro x hx
    cases i with
    | zero =>
      rcases List.mem_cons.mp hx with rfl | hx
      · exact Or.inr ⟨z, by simp, rfl⟩
      · exact Or.inl (List.mem_cons_of_mem _ hx)
    | succ n =>
      rcases List.mem_cons.mp hx with rfl | hx
      · exact Or.inl (by simp)
      · rcases ih n x hx with h | ⟨y, hy, he⟩
        · exact Or.inl (List.mem_cons_of_mem _ h)
        · exact Or.inr ⟨y, List.mem_cons_of_mem _ hy, he⟩

theorem countP_modifyIdx {α : Type} (p : α → Bool) (f : α → α) :
    ∀ (l : List α) (i : ℕ) (hi : i < l.length),
      (modifyIdx f i l).countP p + (if p (l.get ⟨i, hi⟩) then 1 else 0)
        = l.countP p + (if p (f (l.get ⟨i, hi⟩)) then 1 else 0) := by
  intro l
  induction l with
  | nil => intro i hi; simp at hi
  | cons x xs ih =>
    intro i hi
    cases i with
    | zero =>
      have hx : (x :: xs).get ⟨0, hi⟩ = x := rfl
      simp only [modifyIdx, List.countP_cons, hx]
      omega
    | succ n =>
      have hn : n < xs.length := by simpa using hi
      have hx : (x :: xs).get ⟨n + 1, hi⟩ = xs.get ⟨n, hn⟩ := rfl
      simp only [modifyIdx, List.countP_cons, hx]
      have := ih n hn
      omega

/-! ### Facts about the candidate search -/

theorem minLeftP_none (pred : LItem → Bool) :
    ∀ l : List LItem, minLeftP pred l = none ↔ ∀ x ∈ l, pred x = false := by
  intro l
  induction l with
  | nil => simp [minLeftP]
  | cons x xs ih =>
    constructor
    · intro h
      rcases hp : pred x with _ | _
      · rcases hr : minLeftP pred xs with _ | ⟨j, m⟩
        · intro y hy
          rcases List.mem_cons.mp hy with rfl | hy
          · exact hp
          · exact (ih.mp hr) y hy
        · exfalso
          simp [minLeftP, hp, hr] at h
      · exfalso
        rcases hr : minLeftP pred xs with _ | ⟨j, m⟩
        · simp [minLeftP, hp, hr] at h
        · rcases le_or_lt x.left m with hle | hlt
          · simp [minLeftP, hp, hr, if_pos hle] at h
          · simp [minLeftP, hp, hr, if_neg (not_le.mpr hlt)] at h
    · intro h
      have hx : pred x = false := h x (by simp)
      have hxs : minLeftP pred xs = none := ih.mpr (fun y hy => h y (List.mem_cons_of_mem _ hy))
      simp [minLeftP, hx, hxs]

theorem minLeftP_some (pred : LItem → Bool) :
    ∀ (l : List LItem) (i : ℕ) (m : ℚ), minLeftP pred l = some (i, m) →
      ∃ hi : i < l.length, pred (l.get ⟨i, hi⟩) = true ∧ (l.get ⟨i, hi⟩).left = m ∧
        ∀ (j : ℕ) (hj : j < l.length), pred (l.get ⟨j, hj⟩) = true →
          m ≤ (l.get ⟨j, hj⟩).left := by
  intro l
  induction l with
  | nil => intro i m h; simp [minLeftP] at h
  | cons x xs ih =>
    intro i m h
    rcases hp : pred x with _ | _
    · -- pred x = false: the result is the shifted tail result
      rcases hr : minLeftP pred xs with _ | ⟨j, m2⟩
      · simp [minLeftP, hp, hr] at h
      · simp only [minLeftP, hp, hr, Option.map_some'] at h
        rw [if_neg (by simp)] at h
        rw [Option.some.injEq, Prod.mk.injEq] at h
        obtain ⟨rfl, rfl⟩ := h
        obtain ⟨hj, hpj, hlj, hmin⟩ := ih j m2 hr
        have hjs : j + 1 < (x :: xs).length := by simpa using Nat.succ_lt_succ hj
        have hget : (x :: xs).get ⟨j + 1, hjs⟩ = xs.get ⟨j, hj⟩ := rfl
        refine ⟨hjs, by rw [hget]; exact hpj, by rw [hget]; exact hlj, ?_⟩
        intro k hk hpk
        cases k with
        | zero =>
          have h0 : (x :: xs).get ⟨0, hk⟩ = x := rfl
          rw [h0, hp] at hpk
          exact Bool.noConfusion hpk
        | succ p =>
          have hps : p < xs.length := by simpa using hk
          have hg : (x :: xs).get ⟨p + 1, hk⟩ = xs.get ⟨p, hps⟩ := rfl
          rw [hg] at hpk ⊢
          exact hmin p hps hpk
    · -- pred x = true
      rcases hr : minLeftP pred xs with _ | ⟨j, m2⟩
      · -- tail empty: result (0, x.left)
        simp only [minLeftP, hp, hr, Option.map_none'] at h
        rw [if_true] at h
        rw [Option.some.injEq, Prod.mk.injEq] at h
        obtain ⟨rfl, rfl⟩ := h
        refine ⟨by simp, hp, rfl, ?_⟩
        intro k hk hpk
        cases k with
        | zero => exact le_refl _
        | succ p =>
          exfalso
          have hps : p < xs.length := by simpa using hk
          have hg : (x :: xs).get ⟨p + 1, hk⟩ = xs.get ⟨p, hps⟩ := rfl
          rw [hg] at hpk
          have hall := (minLeftP_none pred xs).mp hr (xs.get ⟨p, hps⟩) (List.get_mem xs p hps)
          rw [hpk] at hall
          exact Bool.noConfusion hall
      · -- tail found (j, m2)
        simp only [minLeftP, hp, hr, Option.map_some'] at h
        rw [if_true] at h
        obtain ⟨hj, hpj, hlj, hmin⟩ := ih j m2 hr
        rcases le_or_lt x.left m2 with hle | hlt
        · rw [if_pos hle] at h
          rw [Option.some.injEq, Prod.mk.injEq] at h
          obtain ⟨rfl, rfl⟩ := h
          refine ⟨by simp, hp, rfl, ?_⟩
          intro k hk hpk
          cases k with
          | zero => exact le_refl _
          | succ p =>
            have hps : p < xs.length := by simpa using hk
            have hg : (x :: xs).get ⟨p + 1, hk⟩ = xs.get ⟨p, hps⟩ := rfl
            rw [hg] at hpk ⊢
            exact le_trans hle (hmin p hps hpk)
        · rw [if_neg (not_le.mpr hlt)] at h
          rw [Option.some.injEq, Prod.mk.injEq] at h
          obtain ⟨rfl, rfl⟩ := h
          have hjs : j + 1 < (x :: xs).length := by simpa using Nat.succ_lt_succ hj
          have hget : (x :: xs).get ⟨j + 1, hjs⟩ = xs.get ⟨j, hj⟩ := rfl
          refine ⟨hjs, by rw [hget]; exact hpj, by rw [hget]; exact hlj, ?_⟩
          intro k hk hpk
          cases k with
          | zero =>
            have h0 : (x :: xs).get ⟨0, hk⟩ = x := rfl
            rw [h0]
            exact le_of_lt hlt
          | succ p =>
            have hps : p < xs.length := by simpa using hk
            have hg : (x :: xs).get ⟨p + 1, hk⟩ = xs.get ⟨p, hps⟩ := rfl
            rw [hg] at hpk ⊢
            exact hmin p hps hpk

theorem isCollapseCandidate_expanded {layouts : List LItem} {topmost : ℚ} {ms : LItem}
    (h : isCollapseCandidate layouts topmost ms = true) : ms.collapsed = false := by
  unfold isCollapseCandidate at h
  rw [Bool.and_eq_true] at h
  simpa using h.1

/-- Characterisation of the chosen collapse candidate: it is a candidate
(expanded and overlapping an item at the topmost position), a non-coloured
candidate is never passed over in favour of a coloured one, and within its
colour group it has the minimal `left`. -/
theorem findCandidateIdx_spec (layouts : List LItem) (i : ℕ)
    (h : findCandidateIdx layouts = some i) :
    ∃ hi : i < layouts.length,
      isCollapseCandidate layouts (maxTopOf layouts) (layouts.get ⟨i, hi⟩) = true ∧
      ∀ (j : ℕ) (hj : j < layouts.length),
        isCollapseCandidate layouts (maxTopOf layouts) (layouts.get ⟨j, hj⟩) = true →
        ((layouts.get ⟨i, hi⟩).isColoured = false ∨ (layouts.get ⟨j, hj⟩).isColoured = true) ∧
        ((layouts.get ⟨j, hj⟩).isColoured = (layouts.get ⟨i, hi⟩).isColoured →
          (layouts.get ⟨i, hi⟩).left ≤ (layouts.get ⟨j, hj⟩).left) := by
  unfold findCandidateIdx at h
  split at h
  · exact Option.noConfusion h
  · rcases hnc : minLeftP
        (fun ms => isCollapseCandidate layouts (maxTopOf layouts) ms && !ms.isColoured)
        layouts with _ | p
    · rw [hnc] at h
      rcases hcc : minLeftP
          (fun ms => isCollapseCandidate layouts (maxTopOf layouts) ms && ms.isColoured)
          layouts with _ | q
      · rw [hcc] at h
        exact Option.noConfusion h
      · rw [hcc] at h
        rw [Option.map_some', Option.some.injEq] at h
        subst h
        obtain ⟨hq, hpq, hlq, hminq⟩ := minLeftP_some _ layouts q.1 q.2 hcc
        rw [Bool.and_eq_true] at hpq
        refine ⟨hq, hpq.1, ?_⟩
        intro j hj hcand
        have hallnc := (minLeftP_none _ layouts).mp hnc (layouts.get ⟨j, hj⟩)
          (List.get_mem layouts j hj)
        rw [Bool.and_eq_false_iff] at hallnc
        have hcolj : (layouts.get ⟨j, hj⟩).isColoured = true := by
          rcases hallnc with hc0 | hc1
          · rw [hcand] at hc0
            exact Bool.noConfusion hc0
          · simpa using hc1
        constructor
        · right
          exact hcolj
        · intro _
          have hpredC : (fun ms =>
              isCollapseCandidate layouts (maxTopOf layouts) ms && ms.isColoured)
              (layouts.get ⟨j, hj⟩) = true := by
            rw [Bool.and_eq_true]
            exact ⟨hcand, hcolj⟩
          have hm := hminq j hj hpredC
          rw [hlq]
          exact hm
    · rw [hnc] at h
      rw [Option.some.injEq] at h
      subst h
      obtain ⟨hp, hpp, hlp, hminp⟩ := minLeftP_some _ layouts p.1 p.2 hnc
      rw [Bool.and_eq_true] at hpp
      refine ⟨hp, hpp.1, ?_⟩
      intro j hj hcand
      constructor
      · left
        simpa using hpp.2
      · intro hcol
        have : (fun ms => isCollapseCandidate layouts (maxTopOf layouts) ms && !ms.isColoured)
            (layouts.get ⟨j, hj⟩) = true := by
          rw [Bool.and_eq_true]
          refine ⟨hcand, ?_⟩
          rw [hcol]
          simpa using hpp.2
        have hm := hminp j hj this
        rw [hlp]
        exact hm

/-! ### Invariants of the collapse loop -/

def expandedCount (l : List LItem) : ℕ := l.countP (fun x => !x.collapsed)

def collapsedCount (l : List LItem) : ℕ := l.countP (fun x => x.collapsed)

theorem expandedCount_runPass (l : List LItem) :
    expandedCount (runPass l).1 = expandedCount l := by
  unfold expandedCount
  have h1 : ((runPass l).1.map stripTop).countP (fun s => !s.2.2.2)
      = (l.map stripTop).countP (fun s => !s.2.2.2) := by rw [runPass_strip]
  rw [List.countP_map, List.countP_map] at h1
  exact h1

theorem collapsedCount_runPass (l : List LItem) :
    collapsedCount (runPass l).1 = collapsedCount l := by
  unfold collapsedCount
  have h1 : ((runPass l).1.map stripTop).countP (fun s => s.2.2.2)
      = (l.map stripTop).countP (fun s => s.2.2.2) := by rw [runPass_strip]
  rw [List.countP_map, List.countP_map] at h1
  exact h1

theorem expandedCount_collapseAt (opts : LOpts) (l : List LItem) (c : ℕ) (hc : c < l.length)
    (hexp : (l.get ⟨c, hc⟩).collapsed = false) :
    expandedCount (collapseAt opts l c) + 1 = expandedCount l := by
  unfold expandedCount collapseAt
  have h := countP_modifyIdx (fun x => !x.collapsed)
    (fun ms => { ms with collapsed := true, width := opts.collapsedWidth }) l c hc
  rw [hexp] at h
  simp only [Bool.not_false, Bool.not_true, if_true] at h
  rw [if_neg (by simp)] at h
  omega

theorem collapsedCount_collapseAt (opts : LOpts) (l : List LItem) (c : ℕ) (hc : c < l.length)
    (hexp : (l.get ⟨c, hc⟩).collapsed = false) :
    collapsedCount (collapseAt opts l c) = collapsedCount l + 1 := by
  unfold collapsedCount collapseAt
  have h := countP_modifyIdx (fun x => x.collapsed)
    (fun ms => { ms with collapsed := true, width := opts.collapsedWidth }) l c hc
  rw [hexp] at h
  simp only [if_true] at h
  rw [if_neg (by simp)] at h
  omega

theorem collapseAt_length (opts : LOpts) (l : List LItem) (c : ℕ) :
    (collapseAt opts l c).length = l.length := by
  unfold collapseAt
  rw [length_modifyIdx]

theorem collapseLoop_length (opts : LOpts) :
    ∀ (fuel : ℕ) (layouts : List LItem),
      (collapseLoop opts fuel layouts).layouts.length = layouts.length := by
  intro fuel
  induction fuel with
  | zero => intro layouts; rfl
  | succ fuel ih =>
    intro layouts
    rw [collapseLoop]
    split
    · exact runPass_length layouts
    · split
      · exact runPass_length layouts
      · rw [ih, collapseAt_length, runPass_length]

/-- Whenever the loop reports `ok = true`, every item in the returned layouts
satisfies the height budget. -/
theorem collapseLoop_fits (opts : LOpts) :
    ∀ (fuel : ℕ) (layouts : List LItem),
      (collapseLoop opts fuel layouts).ok = true →
      ∀ x ∈ (collapseLoop opts fuel layouts).layouts, x.top + ROW_HEIGHT ≤ opts.maxHeight := by
  intro fuel
  induction fuel with
  | zero => intro layouts h; exact Bool.noConfusion h
  | succ fuel ih =>
    intro layouts
    rw [collapseLoop]
    split
    · rename_i hfit
      intro _ x hx
      exact le_trans (runPass_maxTop layouts x hx) hfit
    · split
      · intro h
        exact Bool.noConfusion h
      · intro h x hx
        exact ih _ h x hx

/-- While there are more units of fuel than expanded items, the returned
layouts come from a completed lane-assignment pass, so lane-sharing items are
separated. -/
theorem collapseLoop_pairwise (opts : LOpts) :
    ∀ (fuel : ℕ) (layouts : List LItem), expandedCount layouts < fuel →
      List.Pairwise laneSep (collapseLoop opts fuel layouts).layouts := by
  intro fuel
  induction fuel with
  | zero => intro layouts h; exact absurd h (Nat.not_lt_zero _)
  | succ fuel ih =>
    intro layouts hcount
    rw [collapseLoop]
    split
    · exact runPass_pairwise layouts
    · split
      · exact runPass_pairwise layouts
      · rename_i c heq
        apply ih
        obtain ⟨hc, hcand, _⟩ := findCandidateIdx_spec _ c heq
        have hexp := isCollapseCandidate_expanded hcand
        have hdec := expandedCount_collapseAt opts (runPass layouts).1 c hc hexp
        have hpre := expandedCount_runPass layouts
        omega

/-- When a pass exceeds the budget and no candidate exists, the loop stops at
once with `ok = false`. -/
theorem collapseLoop_no_candidate (opts : LOpts) (fuel : ℕ) (layouts : List LItem)
    (h1 : ¬ (runPass layouts).2 ≤ opts.maxHeight)
    (h2 : findCandidateIdx (runPass layouts).1 = none) :
    collapseLoop opts (fuel + 1) layouts = ⟨(runPass layouts).1, false, 1⟩ := by
  rw [collapseLoop]
  rw [if_neg h1, h2]

theorem collapseLoop_succ_fit (opts : LOpts) (fuel : ℕ) (layouts : List LItem)
    (h : (runPass layouts).2 ≤ opts.maxHeight) :
    collapseLoop opts (fuel + 1) layouts = ⟨(runPass layouts).1, true, 1⟩ := by
  rw [collapseLoop, if_pos h]

theorem collapseLoop_succ_some (opts : LOpts) (fuel : ℕ) (layouts : List LItem) (c : ℕ)
    (h1 : ¬ (runPass layouts).2 ≤ opts.maxHeight)
    (h2 : findCandidateIdx (runPass layouts).1 = some c) :
    collapseLoop opts (fuel + 1) layouts =
      ⟨(collapseLoop opts fuel (collapseAt opts (runPass layouts).1 c)).layouts,
        (collapseLoop opts fuel (collapseAt opts (runPass layouts).1 c)).ok,
        (collapseLoop opts fuel (collapseAt opts (runPass layouts).1 c)).passes + 1⟩ := by
  rw [collapseLoop, if_neg h1, h2]

/-- Once collapsed, an item stays collapsed with its collapsed width. -/
theorem collapseLoop_monotone (opts : LOpts) :
    ∀ (fuel : ℕ) (layouts : List LItem) (i : ℕ) (hi : i < layouts.length),
      (layouts.get ⟨i, hi⟩).collapsed = true →
      ∃ hi2 : i < (collapseLoop opts fuel layouts).layouts.length,
        ((collapseLoop opts fuel layouts).layouts.get ⟨i, hi2⟩).collapsed = true ∧
        ((collapseLoop opts fuel layouts).layouts.get ⟨i, hi2⟩).width
          = (layouts.get ⟨i, hi⟩).width := by
  intro fuel
  induction fuel with
  | zero =>
    intro layouts i hi h
    exact ⟨hi, h, rfl⟩
  | succ fuel ih =>
    intro layouts i hi h
    have hi1 : i < (runPass layouts).1.length := by rw [runPass_length]; exact hi
    have hstrip := runPass_get_strip layouts i hi hi1
    obtain ⟨_, hw, _, hcoll⟩ := stripTop_fields hstrip
    by_cases hfit : (runPass layouts).2 ≤ opts.maxHeight
    · rw [collapseLoop_succ_fit opts fuel layouts hfit]
      exact ⟨hi1, by rw [hcoll]; exact h, hw⟩
    rcases hcd : findCandidateIdx (runPass layouts).1 with _ | c
    · rw [collapseLoop_no_candidate opts fuel layouts hfit hcd]
      exact ⟨hi1, by rw [hcoll]; exact h, hw⟩
    · rw [collapseLoop_succ_some opts fuel layouts c hfit hcd]
      obtain ⟨hc, hcand, _⟩ := findCandidateIdx_spec _ c hcd
      have hexp := isCollapseCandidate_expanded hcand
      have hne : i ≠ c := by
        intro hcontr
        subst hcontr
        have hee : ((runPass layouts).1.get ⟨i, hi1⟩) = ((runPass layouts).1.get ⟨i, hc⟩) := rfl
        rw [← hcoll, hee] at h
        rw [h] at hexp
        exact Bool.noConfusion hexp
      have hi3 : i < (collapseAt opts (runPass layouts).1 c).length := by
        rw [collapseAt_length]
        exact hi1
      have hpres : (collapseAt opts (runPass layouts).1 c).get ⟨i, hi3⟩
          = (runPass layouts).1.get ⟨i, hi1⟩ := by
        unfold collapseAt
        rw [get_modifyIdx _ _ c i hi1 hi3]
        rw [if_neg hne]
      have hcoll2 : ((collapseAt opts (runPass layouts).1 c).get ⟨i, hi3⟩).collapsed = true := by
        rw [hpres, hcoll]
        exact h
      obtain ⟨hi4, hres1, hres2⟩ := ih (collapseAt opts (runPass layouts).1 c) i hi3 hcoll2
      refine ⟨hi4, hres1, ?_⟩
      rw [hres2, hpres, hw]

/-- Every `top` the loop returns is a natural multiple of `ROW_HEIGHT`. -/
theorem collapseLoop_multiples (opts : LOpts) :
    ∀ (fuel : ℕ) (layouts : List LItem),
      (∀ x ∈ layouts, ∃ k : ℕ, x.top = (k : ℚ) * ROW_HEIGHT) →
      ∀ x ∈ (collapseLoop opts fuel layouts).layouts, ∃ k : ℕ, x.top = (k : ℚ) * ROW_HEIGHT := by
  intro fuel
  induction fuel with
  | zero => intro layouts h; exact h
  | succ fuel ih =>
    intro layouts hmul
    rw [collapseLoop]
    split
    · exact runPass_multiples layouts
    · split
      · exact runPass_multiples layouts
      · apply ih
        intro x hx
        unfold collapseAt at hx
        rcases mem_modifyIdx _ _ _ x hx with hmem | ⟨y, hy, rfl⟩
        · exact runPass_multiples layouts x hmem
        · exact runPass_multiples layouts y hy

/-- The loop runs at most `fuel` lane-assignment passes. -/
theorem collapseLoop_passes_le (opts : LOpts) :
    ∀ (fuel : ℕ) (layouts : List LItem), (collapseLoop opts fuel layouts).passes ≤ fuel := by
  intro fuel
  induction fuel with
  | zero => intro layouts; exact le_refl 0
  | succ fuel ih =>
    intro layouts
    rw [collapseLoop]
    split
    · exact Nat.succ_le_succ (Nat.zero_le _)
    · split
      · exact Nat.succ_le_succ (Nat.zero_le _)
      · exact Nat.succ_le_succ (ih _)

/-- Every pass except possibly the final one collapses exactly one item. -/
theorem collapseLoop_growth (opts : LOpts) :
    ∀ (fuel : ℕ) (layouts : List LItem), ∃ c : ℕ,
      collapsedCount (collapseLoop opts fuel layouts).layouts = collapsedCount layouts + c ∧
      c ≤ (collapseLoop opts fuel layouts).passes ∧
      (collapseLoop opts fuel layouts).passes ≤ c + 1 := by
  intro fuel
  induction fuel with
  | zero => intro layouts; exact ⟨0, rfl, le_refl 0, Nat.zero_le 1⟩
  | succ fuel ih =>
    intro layouts
    by_cases hfit : (runPass layouts).2 ≤ opts.maxHeight
    · rw [collapseLoop_succ_fit opts fuel layouts hfit]
      exact ⟨0, by rw [collapsedCount_runPass]; omega, Nat.zero_le 1, le_refl 1⟩
    rcases hcd : findCandidateIdx (runPass layouts).1 with _ | c
    · rw [collapseLoop_no_candidate opts fuel layouts hfit hcd]
      exact ⟨0, by rw [collapsedCount_runPass]; omega, Nat.zero_le 1, le_refl 1⟩
    · rw [collapseLoop_succ_some opts fuel layouts c hfit hcd]
      obtain ⟨hc, hcand, _⟩ := findCandidateIdx_spec _ c hcd
      have hexp := isCollapseCandidate_expanded hcand
      obtain ⟨d, hd1, hd2, hd3⟩ := ih (collapseAt opts (runPass layouts).1 c)
      refine ⟨d + 1, ?_, by simp only []; omega, by simp only []; omega⟩
      show collapsedCount (collapseLoop opts fuel (collapseAt opts (runPass layouts).1 c)).layouts
        = collapsedCount layouts + (d + 1)
      rw [hd1, collapsedCount_collapseAt opts _ c hc hexp, collapsedCount_runPass]
      omega

/-! ### Claim theorems for the collapse engine -/

theorem expandedCount_coreInit (opts : LOpts) (unsorted : List CoreInput) :
    expandedCount (coreInit opts unsorted) = unsorted.length := by
  unfold expandedCount coreInit
  rw [List.countP_eq_length.mpr, List.length_map, length_sortByKey]
  intro a ha
  obtain ⟨y, hy, rfl⟩ := List.mem_map.mp ha
  simp

/-- The output of the core engine always comes from a completed pass, so
lane-sharing items are pairwise separated. -/
theorem corePairwise (unsorted : List CoreInput) (opts : LOpts) :
    List.Pairwise laneSep (layoutLandscapeMilestonesCore unsorted opts).1 := by
  unfold layoutLandscapeMilestonesCore
  apply collapseLoop_pairwise
  rw [expandedCount_coreInit]
  omega

/-- C2: whenever `layoutLandscapeMilestonesCore` terminates with `ok = true`,
the stack fits the height budget: every item satisfies
`top + ROW_HEIGHT ≤ maxHeight` (equivalently `(maxLane + 1) * rowHeight ≤
maxHeight`). -/
theorem C2_height_fit (unsorted : List CoreInput) (opts : LOpts)
    (h : (layoutLandscapeMilestonesCore unsorted opts).2 = true) :
    ∀ x ∈ (layoutLandscapeMilestonesCore unsorted opts).1,
      x.top + ROW_HEIGHT ≤ opts.maxHeight := by
  unfold layoutLandscapeMilestonesCore at h ⊢
  exact collapseLoop_fits opts _ _ h

theorem C2_height_fit_witness :
    ((⟨0, 120, false, 0, false⟩ : LItem)).top + ROW_HEIGHT
      ≤ ((⟨100, 120, 24⟩ : LOpts)).maxHeight :=
  C2_height_fit [⟨0, 50, false⟩] ⟨100, 120, 24⟩
    (by norm_num [layoutLandscapeMilestonesCore, collapseLoop, coreInit, sortByKey,
      insertByKey, runPass, runPassAux, placeTop, sortQ, gapSearch, overlapsX, maxTopOf,
      findCandidateIdx, isCollapseCandidate, minLeftP, collapseAt, modifyIdx,
      ROW_HEIGHT, MILESTONE_GAP])
    ⟨0, 120, false, 0, false⟩
    (by norm_num [layoutLandscapeMilestonesCore, collapseLoop, coreInit, sortByKey,
      insertByKey, runPass, runPassAux, placeTop, sortQ, gapSearch, overlapsX, maxTopOf,
      findCandidateIdx, isCollapseCandidate, minLeftP, collapseAt, modifyIdx,
      ROW_HEIGHT, MILESTONE_GAP])

/-- C3: during one collapse run the set of collapsed items only grows: an item
collapsed in the current loop state is still collapsed, with unchanged width,
in the state the loop returns, whatever fuel remains. -/
theorem C3_monotonic_collapse (opts : LOpts) (fuel : ℕ) (layouts : List LItem)
    (i : ℕ) (hi : i < layouts.length)
    (h : (layouts.get ⟨i, hi⟩).collapsed = true) :
    ∃ hi2 : i < (collapseLoop opts fuel layouts).layouts.length,
      ((collapseLoop opts fuel layouts).layouts.get ⟨i, hi2⟩).collapsed = true ∧
      ((collapseLoop opts fuel layouts).layouts.get ⟨i, hi2⟩).width
        = (layouts.get ⟨i, hi⟩).width :=
  collapseLoop_monotone opts fuel layouts i hi h

theorem C3_monotonic_collapse_witness :
    ∃ hi2 : 0 < (collapseLoop (⟨10, 120, 24⟩ : LOpts) 1
        [(⟨0, 24, false, 0, true⟩ : LItem)]).layouts.length,
      ((collapseLoop (⟨10, 120, 24⟩ : LOpts) 1
        [(⟨0, 24, false, 0, true⟩ : LItem)]).layouts.get ⟨0, hi2⟩).collapsed = true ∧
      ((collapseLoop (⟨10, 120, 24⟩ : LOpts) 1
        [(⟨0, 24, false, 0, true⟩ : LItem)]).layouts.get ⟨0, hi2⟩).width
        = (([(⟨0, 24, false, 0, true⟩ : LItem)]).get ⟨0, by norm_num⟩).width :=
  C3_monotonic_collapse ⟨10, 120, 24⟩ 1 [⟨0, 24, false, 0, true⟩] 0 (by norm_num) rfl

/-- C4: the core runs at most `N + 2` lane-assignment passes for `N` input
items; every pass except possibly the last collapses exactly one item (the
number of collapsed items in the output is `passes` or `passes - 1`); when a
failing pass finds no candidate the loop stops at once reporting `ok = false`;
and the core is a total function of its input. -/
theorem C4_pass_bound (unsorted : List CoreInput) (opts : LOpts) :
    ((collapseLoop opts (unsorted.length + 2) (coreInit opts unsorted)).passes
        ≤ unsorted.length + 2) ∧
    (∃ c : ℕ,
      collapsedCount (collapseLoop opts (unsorted.length + 2)
          (coreInit opts unsorted)).layouts = c ∧
      c ≤ (collapseLoop opts (unsorted.length + 2) (coreInit opts unsorted)).passes ∧
      (collapseLoop opts (unsorted.length + 2) (coreInit opts unsorted)).passes ≤ c + 1) ∧
    (∀ (fuel : ℕ) (layouts : List LItem),
      ¬ (runPass layouts).2 ≤ opts.maxHeight →
      findCandidateIdx (runPass layouts).1 = none →
      collapseLoop opts (fuel + 1) layouts = ⟨(runPass layouts).1, false, 1⟩) ∧
    layoutLandscapeMilestonesCore unsorted opts
      = ((collapseLoop opts (unsorted.length + 2) (coreInit opts unsorted)).layouts,
          (collapseLoop opts (unsorted.length + 2) (coreInit opts unsorted)).ok) := by
  refine ⟨collapseLoop_passes_le opts _ _, ?_,
    fun fuel layouts h1 h2 => collapseLoop_no_candidate opts fuel layouts h1 h2, rfl⟩
  obtain ⟨c, h1, h2, h3⟩ := collapseLoop_growth opts (unsorted.length + 2)
    (coreInit opts unsorted)
  refine ⟨c, ?_, h2, h3⟩
  have h0 : collapsedCount (coreInit opts unsorted) = 0 := by
    unfold collapsedCount coreInit
    rw [List.countP_eq_zero.mpr]
    intro a ha
    obtain ⟨y, hy, rfl⟩ := List.mem_map.mp ha
    simp
  rw [h1, h0]
  omega

theorem C4_pass_bound_witness :
    collapseLoop (⟨10, 120, 24⟩ : LOpts) 1 [(⟨0, 24, false, 0, true⟩ : LItem)]
      = ⟨(runPass [(⟨0, 24, false, 0, true⟩ : LItem)]).1, false, 1⟩ :=
  (C4_pass_bound [] ⟨10, 120, 24⟩).2.2.1 0 [⟨0, 24, false, 0, true⟩]
    (by norm_num [runPass, runPassAux, placeTop, sortQ, sortByKey, insertByKey,
      gapSearch, overlapsX, ROW_HEIGHT, MILESTONE_GAP])
    (by norm_num [runPass, runPassAux, placeTop, sortQ, sortByKey, insertByKey,
      gapSearch, overlapsX, maxTopOf, findCandidateIdx, isCollapseCandidate, minLeftP,
      ROW_HEIGHT, MILESTONE_GAP])

/-- C5: the item chosen by `findCandidate` is an expanded item that overlaps
an item at the topmost position; an item with no semantic colour is preferred
over a coloured one, and within the chosen colour group the item with the
smallest `left` is chosen. -/
theorem C5_candidate_priority (layouts : List LItem) (i : ℕ)
    (h : findCandidateIdx layouts = some i) :
    ∃ hi : i < layouts.length,
      (layouts.get ⟨i, hi⟩).collapsed = false ∧
      isCollapseCandidate layouts (maxTopOf layouts) (layouts.get ⟨i, hi⟩) = true ∧
      ∀ (j : ℕ) (hj : j < layouts.length),
        isCollapseCandidate layouts (maxTopOf layouts) (layouts.get ⟨j, hj⟩) = true →
        ((layouts.get ⟨i, hi⟩).isColoured = false ∨ (layouts.get ⟨j, hj⟩).isColoured = true) ∧
        ((layouts.get ⟨j, hj⟩).isColoured = (layouts.get ⟨i, hi⟩).isColoured →
          (layouts.get ⟨i, hi⟩).left ≤ (layouts.get ⟨j, hj⟩).left) := by
  obtain ⟨hi, hcand, hmin⟩ := findCandidateIdx_spec layouts i h
  exact ⟨hi, isCollapseCandidate_expanded hcand, hcand, hmin⟩

theorem C5_candidate_priority_witness :
    ∃ hi : 1 < ([⟨0, 120, true, 0, false⟩, ⟨10, 120, false, 42, false⟩] :
        List LItem).length,
      (([⟨0, 120, true, 0, false⟩, ⟨10, 120, false, 42, false⟩] :
        List LItem).get ⟨1, hi⟩).collapsed = false ∧
      isCollapseCandidate [⟨0, 120, true, 0, false⟩, ⟨10, 120, false, 42, false⟩]
        (maxTopOf [⟨0, 120, true, 0, false⟩, ⟨10, 120, false, 42, false⟩])
        (([⟨0, 120, true, 0, false⟩, ⟨10, 120, false, 42, false⟩] :
          List LItem).get ⟨1, hi⟩) = true ∧
      ∀ (j : ℕ) (hj : j < ([⟨0, 120, true, 0, false⟩, ⟨10, 120, false, 42, false⟩] :
          List LItem).length),
        isCollapseCandidate [⟨0, 120, true, 0, false⟩, ⟨10, 120, false, 42, false⟩]
          (maxTopOf [⟨0, 120, true, 0, false⟩, ⟨10, 120, false, 42, false⟩])
          (([⟨0, 120, true, 0, false⟩, ⟨10, 120, false, 42, false⟩] :
            List LItem).get ⟨j, hj⟩) = true →
        ((([⟨0, 120, true, 0, false⟩, ⟨10, 120, false, 42, false⟩] :
          List LItem).get ⟨1, hi⟩).isColoured = false ∨
          (([⟨0, 120, true, 0, false⟩, ⟨10, 120, false, 42, false⟩] :
          List LItem).get ⟨j, hj⟩).isColoured = true) ∧
        ((([⟨0, 120, true, 0, false⟩, ⟨10, 120, false, 42, false⟩] :
          List LItem).get ⟨j, hj⟩).isColoured =
            (([⟨0, 120, true, 0, false⟩, ⟨10, 120, false, 42, false⟩] :
            List LItem).get ⟨1, hi⟩).isColoured →
          (([⟨0, 120, true, 0, false⟩, ⟨10, 120, false, 42, false⟩] :
            List LItem).get ⟨1, hi⟩).left ≤
            (([⟨0, 120, true, 0, false⟩, ⟨10, 120, false, 42, false⟩] :
            List LItem).get ⟨j, hj⟩).left) :=
  C5_candidate_priority [⟨0, 120, true, 0, false⟩, ⟨10, 120, false, 42, false⟩] 1
    (by norm_num [findCandidateIdx, isCollapseCandidate, minLeftP, maxTopOf, overlapsX,
      ROW_HEIGHT, MILESTONE_GAP])

/-- C10: for every input and options with positive `maxHeight` the core
returns exactly one layout per input item and every assigned `top` is a
nonnegative integer multiple of `ROW_HEIGHT` (42): it never stacks an item
below the baseline. -/
theorem C10_lane_multiples (unsorted : List CoreInput) (opts : LOpts)
    (hpos : 0 < opts.maxHeight) :
    (layoutLandscapeMilestonesCore unsorted opts).1.length = unsorted.length ∧
    ∀ x ∈ (layoutLandscapeMilestonesCore unsorted opts).1,
      ∃ k : ℕ, x.top = (k : ℚ) * ROW_HEIGHT := by
  constructor
  · unfold layoutLandscapeMilestonesCore
    rw [collapseLoop_length]
    unfold coreInit
    rw [List.length_map, length_sortByKey]
  · unfold layoutLandscapeMilestonesCore
    apply collapseLoop_multiples
    intro x hx
    unfold coreInit at hx
    obtain ⟨y, hy, rfl⟩ := List.mem_map.mp hx
    exact ⟨0, by norm_num⟩

theorem C10_lane_multiples_witness :
    (layoutLandscapeMilestonesCore [(⟨0, 50, false⟩ : CoreInput)]
        (⟨100, 120, 24⟩ : LOpts)).1.length = 1 ∧
    ∃ k : ℕ, ((⟨0, 120, false, 0, false⟩ : LItem)).top = (k : ℚ) * ROW_HEIGHT :=
  ⟨(C10_lane_multiples [⟨0, 50, false⟩] ⟨100, 120, 24⟩ (by norm_num)).1,
    (C10_lane_multiples [⟨0, 50, false⟩] ⟨100, 120, 24⟩ (by norm_num)).2
      ⟨0, 120, false, 0, false⟩
      (by norm_num [layoutLandscapeMilestonesCore, collapseLoop, coreInit, sortByKey,
        insertByKey, runPass, runPassAux, placeTop, sortQ, gapSearch, overlapsX, maxTopOf,
        findCandidateIdx, isCollapseCandidate, minLeftP, collapseAt, modifyIdx,
        ROW_HEIGHT, MILESTONE_GAP])⟩

/-! ## Nearest-lane engine `assignRows` (src/unnamed/part_002 lines 49-117)

Milestones carry a label (source field name: `annotation`, the text whose
measured width sizes the box) and a `position` in percent of the container
width.  Text measurement (`measureTextWidth`, a DOM canvas query) is an
external collaborator and is passed in as a function, as is the emoji lookup
`annotationEmojis`. -/

structure BaseMil where
  labelText : String
  position : ℚ
  deriving DecidableEq, Repr

structure RMil where
  labelText : String
  position : ℚ
  width : ℚ
  row : ℤ
  deriving DecidableEq, Repr

structure MilW where
  labelText : String
  position : ℚ
  width : ℚ
  deriving DecidableEq, Repr

/-- Conflict test of `assignRows` (part_002 lines 84-90): the new span
conflicts with an occupied range unless it lies strictly beyond the gap on one
side: `!(rightPx + MILESTONE_GAP < range.left || leftPx - MILESTONE_GAP >
range.right)`. -/
def hasConflictR (occupied : List (ℚ × ℚ)) (leftPx rightPx : ℚ) : Bool :=
  occupied.any (fun rg =>
    !(decide (rightPx + MILESTONE_GAP < rg.1) || decide (rg.2 < leftPx - MILESTONE_GAP)))

/-- Rows tried at a given distance (part_002 line 80):
`distance === 0 ? [0] : [distance, -distance]`. -/
def rowsToTryAt (distance : ℕ) : List ℤ :=
  if distance = 0 then [0] else [(distance : ℤ), -(distance : ℤ)]

/-- The row adopted at one distance: the first conflict-free row among
`rowsToTryAt`, else the previously adopted row (the JS inner loop breaks at
the first conflict-free row and otherwise leaves `assignedRow` unchanged). -/
def nextRow (occupOf : ℤ → List (ℚ × ℚ)) (leftPx rightPx : ℚ) (distance : ℕ)
    (assignedRow : ℤ) : ℤ :=
  ((rowsToTryAt distance).find?
    (fun row => !hasConflictR (occupOf row) leftPx rightPx)).getD assignedRow

/-- The outward search loop (part_002 lines 76-107): at each distance adopt
`nextRow` and stop as soon as the adopted row is conflict-free; `maxSearch =
10` distances in total, after which the last adopted row (initially 0) is kept
even if it conflicts. -/
def searchFrom (occupOf : ℤ → List (ℚ × ℚ)) (leftPx rightPx : ℚ) :
    ℕ → ℕ → ℤ → ℤ
  | 0, _, assignedRow => assignedRow
  | fuel + 1, distance, assignedRow =>
      if !hasConflictR (occupOf (nextRow occupOf leftPx rightPx distance assignedRow))
          leftPx rightPx then
        nextRow occupOf leftPx rightPx distance assignedRow
      else
        searchFrom occupOf leftPx rightPx fuel (distance + 1)
          (nextRow occupOf leftPx rightPx distance assignedRow)

/-- Placement fold of `assignRows` (part_002 lines 71-114): items in sorted
order; each is given the row found by the search, and its pixel span is pushed
onto that row's occupancy. -/
def assignRowsAux (cw : ℚ) : (ℤ → List (ℚ × ℚ)) → List RMil → List MilW → List RMil
  | _, acc, [] => acc.reverse
  | occupOf, acc, m :: rest =>
      assignRowsAux cw
        (Function.update occupOf
          (searchFrom occupOf (m.position / 100 * cw - m.width / 2)
            (m.position / 100 * cw + m.width / 2) 10 0 0)
          (occupOf (searchFrom occupOf (m.position / 100 * cw - m.width / 2)
            (m.position / 100 * cw + m.width / 2) 10 0 0) ++
            [(m.position / 100 * cw - m.width / 2, m.position / 100 * cw + m.width / 2)]))
        (⟨m.labelText, m.position, m.width,
          searchFrom occupOf (m.position / 100 * cw - m.width / 2)
            (m.position / 100 * cw + m.width / 2) 10 0 0⟩ :: acc)
        rest

/-- `assignRows` (part_002 lines 49-117): width from measured text plus
padding (plus the emoji width when the label has an emoji), stable sort by
position, then the nearest-row placement fold. -/
def assignRows (measure : String → ℚ) (hasEmojiFn : String → Bool)
    (milestones : List BaseMil) (containerWidth : ℚ) : List RMil :=
  assignRowsAux containerWidth (fun _ => []) []
    (sortByKey (fun m : MilW => m.position)
      (milestones.map (fun m =>
        ⟨m.labelText, m.position,
          measure m.labelText + MILESTONE_PADDING +
            (if hasEmojiFn m.labelText then EMOJI_WIDTH else 0)⟩)))

/-- Horizontal pixel center of a placed milestone. -/
def centerOf (cw : ℚ) (m : RMil) : ℚ := m.position / 100 * cw

/-- The no-overlap separation for two placed milestones sharing a row. -/
def rowSep (cw : ℚ) (a b : RMil) : Prop :=
  a.row = b.row → (a.width + b.width) / 2 + MILESTONE_GAP ≤ |centerOf cw a - centerOf cw b|

/-! ### No-overlap invariant of `assignRows` -/

/-- Pixel span of a placed milestone. -/
def spanOf (cw : ℚ) (m : RMil) : ℚ × ℚ :=
  (centerOf cw m - m.width / 2, centerOf cw m + m.width / 2)

theorem rowSep_symm {cw : ℚ} {a b : RMil} (h : rowSep cw a b) : rowSep cw b a := by
  intro heq
  have hs := h heq.symm
  rw [abs_sub_comm] at hs
  calc (b.width + a.width) / 2 + MILESTONE_GAP
      = (a.width + b.width) / 2 + MILESTONE_GAP := by ring
    _ ≤ |centerOf cw b - centerOf cw a| := hs

theorem sep_of_not_conflict {occ : List (ℚ × ℚ)} {l r : ℚ}
    (h : hasConflictR occ l r = false) :
    ∀ rg ∈ occ, r + MILESTONE_GAP < rg.1 ∨ rg.2 < l - MILESTONE_GAP := by
  intro rg hrg
  unfold hasConflictR at h
  rw [List.any_eq_false] at h
  have h2 := h rg hrg
  rw [Bool.not_eq_true] at h2
  rcases hb1 : decide (r + MILESTONE_GAP < rg.1) with _ | _
  · rcases hb2 : decide (rg.2 < l - MILESTONE_GAP) with _ | _
    · rw [hb1, hb2] at h2
      exact Bool.noConfusion h2
    · exact Or.inr (of_decide_eq_true hb2)
  · exact Or.inl (of_decide_eq_true hb1)

theorem sep_of_span_cases {ca wa cb wb : ℚ}
    (h : (ca + wa / 2) + MILESTONE_GAP < cb - wb / 2 ∨ cb + wb / 2 < (ca - wa / 2) - MILESTONE_GAP) :
    (wa + wb) / 2 + MILESTONE_GAP ≤ |ca - cb| := by
  rcases h with h | h
  · have hd : (wa + wb) / 2 + MILESTONE_GAP ≤ cb - ca := by linarith
    calc (wa + wb) / 2 + MILESTONE_GAP ≤ cb - ca := hd
      _ ≤ |ca - cb| := by rw [abs_sub_comm]; exact le_abs_self _
  · have hd : (wa + wb) / 2 + MILESTONE_GAP ≤ ca - cb := by linarith
    calc (wa + wb) / 2 + MILESTONE_GAP ≤ ca - cb := hd
      _ ≤ |ca - cb| := le_abs_self _

/-- The rows the outward search visits, starting at a given distance. -/
def triedRows : ℕ → ℕ → List ℤ
  | 0, _ => []
  | fuel + 1, distance => rowsToTryAt distance ++ triedRows fuel (distance + 1)

/-- If some visited row is conflict-free, the search returns a conflict-free
row. -/
theorem searchFrom_free (occupOf : ℤ → List (ℚ × ℚ)) (l r : ℚ) :
    ∀ (fuel distance : ℕ) (a : ℤ),
      (∃ row ∈ triedRows fuel distance, hasConflictR (occupOf row) l r = false) →
      hasConflictR (occupOf (searchFrom occupOf l r fuel distance a)) l r = false := by
  intro fuel
  induction fuel with
  | zero =>
    intro distance a h
    obtain ⟨row, hrow, _⟩ := h
    simp [triedRows] at hrow
  | succ fuel ih =>
    intro distance a h
    rcases hcb : hasConflictR (occupOf (nextRow occupOf l r distance a)) l r with _ | _
    · rw [searchFrom, if_pos (by rw [hcb]; rfl)]
      exact hcb
    · rw [searchFrom, if_neg (by rw [hcb]; simp)]
      apply ih
      obtain ⟨row, hrow, hfree⟩ := h
      rw [triedRows, List.mem_append] at hrow
      rcases hrow with hrow | hrow
      · exfalso
        have hfind : (rowsToTryAt distance).find?
            (fun row => !hasConflictR (occupOf row) l r) ≠ none := by
          intro hnone
          rw [List.find?_eq_none] at hnone
          exact hnone row hrow (by rw [hfree]; rfl)
        rcases hsome : (rowsToTryAt distance).find?
            (fun row => !hasConflictR (occupOf row) l r) with _ | r2
        · exact hfind hsome
        · have hp := List.find?_some hsome
          rw [Bool.not_eq_true'] at hp
          have : nextRow occupOf l r distance a = r2 := by
            unfold nextRow
            rw [hsome]
            rfl
          rw [this, hp] at hcb
          exact Bool.noConfusion hcb
      · exact ⟨row, hrow, hfree⟩

/-- Pigeonhole: fewer than 19 used rows leave one of the 19 searched rows
untouched. -/
theorem exists_fresh_row (used : List ℤ) (hlen : used.length < 19) :
    ∃ row ∈ triedRows 10 0, ¬ row ∈ used := by
  by_contra hcon
  push_neg at hcon
  have hsub : (triedRows 10 0).toFinset ⊆ used.toFinset := by
    intro x hx
    rw [List.mem_toFinset] at hx ⊢
    exact hcon x hx
  have h1 : (triedRows 10 0).toFinset.card = 19 := by decide
  have h2 := List.toFinset_card_le used
  have h3 := Finset.card_le_card hsub
  omega

/-- Invariant fold: with at most 19 items in total every placement gets a
conflict-free row, so same-row spans stay separated. -/
theorem assignRowsAux_pairwise (cw : ℚ) :
    ∀ (rest : List MilW) (occupOf : ℤ → List (ℚ × ℚ)) (acc : List RMil),
      (∀ m ∈ acc, spanOf cw m ∈ occupOf m.row) →
      (∀ row : ℤ, occupOf row ≠ [] → row ∈ acc.map (fun m => m.row)) →
      List.Pairwise (rowSep cw) acc →
      acc.length + rest.length ≤ 19 →
      List.Pairwise (rowSep cw) (assignRowsAux cw occupOf acc rest) := by
  intro rest
  induction rest with
  | nil =>
    intro occupOf acc _ _ hB _
    rw [assignRowsAux, List.pairwise_reverse]
    exact hB.imp (fun h => rowSep_symm h)
  | cons m rest ih =>
    intro occupOf acc hA hC hB hcount
    rw [assignRowsAux]
    set l := m.position / 100 * cw - m.width / 2 with hl
    set r := m.position / 100 * cw + m.width / 2 with hr2
    set row := searchFrom occupOf l r 10 0 0 with hrow
    have hacc : acc.length ≤ 18 := by
      simp only [List.length_cons] at hcount
      omega
    have hfree : hasConflictR (occupOf row) l r = false := by
      have hlen : (acc.map (fun m => m.row)).length < 19 := by
        rw [List.length_map]
        omega
      obtain ⟨frow, hfT, hfU⟩ := exists_fresh_row (acc.map (fun m => m.row)) hlen
      have hempty : occupOf frow = [] := by
        by_contra hne
        exact hfU (hC frow hne)
      refine searchFrom_free occupOf l r 10 0 0 ⟨frow, hfT, ?_⟩
      rw [hempty]
      rfl
    apply ih
    · intro m2 hm2
      rcases List.mem_cons.mp hm2 with rfl | hm2
      · show spanOf cw _ ∈ _
        have hself : (⟨m.labelText, m.position, m.width, row⟩ : RMil).row = row := rfl
        rw [hself, Function.update_same]
        have hspan : spanOf cw (⟨m.labelText, m.position, m.width, row⟩ : RMil) = (l, r) := rfl
        rw [hspan]
        exact List.mem_append_right _ (by simp)
      · by_cases he : m2.row = row
        · rw [he, Function.update_same]
          have := hA m2 hm2
          rw [he] at this
          exact List.mem_append_left _ this
        · rw [Function.update_noteq he]
          exact hA m2 hm2
    · intro row2 hne2
      by_cases he : row2 = row
      · subst he
        simp
      · rw [Function.update_noteq he] at hne2
        have := hC row2 hne2
        simp only [List.map_cons, List.mem_cons]
        exact Or.inr this
    · rw [List.pairwise_cons]
      refine ⟨?_, hB⟩
      intro o ho heq
      have hmem : spanOf cw o ∈ occupOf row := by
        have h2 := hA o ho
        rw [← heq] at h2
        exact h2
      have hsep := sep_of_not_conflict hfree (spanOf cw o) hmem
      unfold spanOf at hsep
      have hc1 : centerOf cw (⟨m.labelText, m.position, m.width, row⟩ : RMil)
          = m.position / 100 * cw := rfl
      apply sep_of_span_cases
      rw [hc1]
      simpa [hl, hr2] using hsep
    · simp only [List.length_cons] at hcount ⊢
      omega

/-- With at most 19 milestones, any two same-row items placed by `assignRows`
satisfy the no-overlap separation. -/
theorem assignRows_pairwise (measure : String → ℚ) (hasEmojiFn : String → Bool)
    (milestones : List BaseMil) (cw : ℚ) (hlen : milestones.length ≤ 19) :
    List.Pairwise (rowSep cw) (assignRows measure hasEmojiFn milestones cw) := by
  unfold assignRows
  apply assignRowsAux_pairwise
  · intro m hm
    simp at hm
  · intro row h
    exact absurd rfl h
  · exact List.Pairwise.nil
  · rw [length_sortByKey, List.length_map]
    simpa using hlen

set_option maxRecDepth 65536 in
set_option maxHeartbeats 4000000 in
/-- C1 counterexample: with 20 mutually overlapping milestones the nearest-lane
search of `assignRows` exhausts its 19 candidate rows (`maxSearch = 10`,
rows `0, ±1, …, ±9`) and silently keeps row 0 for the 20th item, which then
overlaps the first item in row 0: the no-overlap invariant fails. -/
theorem C1_no_overlap_counterexample :
    ¬ List.Pairwise (rowSep 1000)
        (assignRows (fun _ => 60) (fun _ => false)
          [⟨"m", 50⟩, ⟨"m", 50⟩, ⟨"m", 50⟩, ⟨"m", 50⟩, ⟨"m", 50⟩,
           ⟨"m", 50⟩, ⟨"m", 50⟩, ⟨"m", 50⟩, ⟨"m", 50⟩, ⟨"m", 50⟩,
           ⟨"m", 50⟩, ⟨"m", 50⟩, ⟨"m", 50⟩, ⟨"m", 50⟩, ⟨"m", 50⟩,
           ⟨"m", 50⟩, ⟨"m", 50⟩, ⟨"m", 50⟩, ⟨"m", 50⟩, ⟨"m", 50⟩] 1000) := by
  intro hpw
  have heval : assignRows (fun _ => 60) (fun _ => false)
      [⟨"m", 50⟩, ⟨"m", 50⟩, ⟨"m", 50⟩, ⟨"m", 50⟩, ⟨"m", 50⟩,
       ⟨"m", 50⟩, ⟨"m", 50⟩, ⟨"m", 50⟩, ⟨"m", 50⟩, ⟨"m", 50⟩,
       ⟨"m", 50⟩, ⟨"m", 50⟩, ⟨"m", 50⟩, ⟨"m", 50⟩, ⟨"m", 50⟩,
       ⟨"m", 50⟩, ⟨"m", 50⟩, ⟨"m", 50⟩, ⟨"m", 50⟩, ⟨"m", 50⟩] 1000
      = [⟨"m", 50, 80, 0⟩, ⟨"m", 50, 80, 1⟩, ⟨"m", 50, 80, -1⟩, ⟨"m", 50, 80, 2⟩,
         ⟨"m", 50, 80, -2⟩, ⟨"m", 50, 80, 3⟩, ⟨"m", 50, 80, -3⟩, ⟨"m", 50, 80, 4⟩,
         ⟨"m", 50, 80, -4⟩, ⟨"m", 50, 80, 5⟩, ⟨"m", 50, 80, -5⟩, ⟨"m", 50, 80, 6⟩,
         ⟨"m", 50, 80, -6⟩, ⟨"m", 50, 80, 7⟩, ⟨"m", 50, 80, -7⟩, ⟨"m", 50, 80, 8⟩,
         ⟨"m", 50, 80, -8⟩, ⟨"m", 50, 80, 9⟩, ⟨"m", 50, 80, -9⟩, ⟨"m", 50, 80, 0⟩] := by
    norm_num [assignRows, assignRowsAux, searchFrom, nextRow, rowsToTryAt, hasConflictR,
      sortByKey, insertByKey, Function.update, MILESTONE_PADDING, MILESTONE_GAP]
  rw [heval] at hpw
  rw [List.pairwise_cons] at hpw
  have h01 := hpw.1 ⟨"m", 50, 80, 0⟩ (by simp)
  have h2 := h01 rfl
  norm_num [centerOf, MILESTONE_GAP] at h2

/-- C1 amended: any two lane-sharing items laid out by the landscape collapse
engine satisfy `(widthA + widthB) / 2 + MILESTONE_GAP ≤ |leftA - leftB|`; for
the nearest-lane variant `assignRows` the same separation (on the pixel
centers derived from the percent positions) holds provided the input has at
most 19 milestones — beyond that the bounded outward search (rows 0, ±1, …,
±9) can exhaust and fall back to row 0 regardless of conflicts. -/
theorem C1_no_overlap_amended :
    (∀ (unsorted : List CoreInput) (opts : LOpts),
      List.Pairwise laneSep (layoutLandscapeMilestonesCore unsorted opts).1) ∧
    (∀ (measure : String → ℚ) (hasEmojiFn : String → Bool) (milestones : List BaseMil)
      (cw : ℚ), milestones.length ≤ 19 →
      List.Pairwise (rowSep cw) (assignRows measure hasEmojiFn milestones cw)) :=
  ⟨corePairwise, assignRows_pairwise⟩

theorem C1_no_overlap_amended_witness :
    List.Pairwise (rowSep 1000)
      (assignRows (fun _ => 60) (fun _ => false) [⟨"a", 10⟩, ⟨"b", 90⟩] 1000) :=
  C1_no_overlap_amended.2 (fun _ => 60) (fun _ => false) [⟨"a", 10⟩, ⟨"b", 90⟩] 1000
    (by norm_num)

/-! ## Landscape wrapper `layoutLandscapeMilestones` (WeeklyView.tsx lines 762-800)

The wrapper measures each label, computes
`min(textWidth + MILESTONE_PADDING (+ EMOJI_WIDTH), EXPANDED_WIDTH)` and the
pixel center `position / 100 * containerWidth`, then calls the core.  Text
measurement and the emoji lookup are external collaborators passed in as
functions.  The embedding keeps the layout-relevant fields of the output
(`left`, `width`, `isColoured`, `top`, `collapsed`); the source's
`MilestoneWithLayout` renames `top` to `topPx` and `!collapsed` to
`expanded`. -/

structure BaseMilestoneL where
  labelText : String
  position : ℚ
  hasColor : Bool
  deriving DecidableEq, Repr

def layoutLandscapeMilestones (measure : String → ℚ) (hasEmojiFn : String → Bool)
    (milestones : List BaseMilestoneL) (containerWidth maxHeight : ℚ) : List LItem :=
  if milestones.length = 0 ∨ containerWidth ≤ 0 ∨ maxHeight ≤ 0 then []
  else
    (layoutLandscapeMilestonesCore
      (milestones.map (fun m =>
        ⟨m.position / 100 * containerWidth,
          min (measure m.labelText + MILESTONE_PADDING +
            (if hasEmojiFn m.labelText then EMOJI_WIDTH else 0)) EXPANDED_WIDTH,
          m.hasColor⟩))
      ⟨maxHeight, EXPANDED_WIDTH, COLLAPSED_WIDTH⟩).1

/-- C7 counterexample: two milestones whose measured label widths differ (60
and 110 pixels naturally) are both laid out with the uniform width 120
(`EXPANDED_WIDTH`): the core overwrites the measured width, and the lane
assignment separates them (tops 0 and 42) even though their measured widths
(60 + 110) / 2 + 8 = 93 ≤ 100 = |400 - 300| would let them share a lane. -/
theorem C7_width_not_measured :
    layoutLandscapeMilestones (fun s => if s = "a" then 40 else 90) (fun _ => false)
        [⟨"a", 30, false⟩, ⟨"b", 40, false⟩] 1000 200
      = [⟨300, 120, false, 0, false⟩, ⟨400, 120, false, 42, false⟩] ∧
    min ((if ("a" : String) = "a" then (40 : ℚ) else 90) + MILESTONE_PADDING) EXPANDED_WIDTH
      = 60 ∧
    min ((if ("b" : String) = "a" then (40 : ℚ) else 90) + MILESTONE_PADDING) EXPANDED_WIDTH
      = 110 := by
  refine ⟨?_, by norm_num [MILESTONE_PADDING, EXPANDED_WIDTH], ?_⟩
  · have hin : ([⟨"a", 30, false⟩, ⟨"b", 40, false⟩] : List BaseMilestoneL).map
        (fun m => (⟨m.position / 100 * 1000,
          min ((fun s => if s = "a" then (40 : ℚ) else 90) m.labelText + MILESTONE_PADDING +
            (if (fun _ : String => false) m.labelText then EMOJI_WIDTH else 0)) EXPANDED_WIDTH,
          m.hasColor⟩ : CoreInput))
        = [⟨300, 60, false⟩, ⟨400, 110, false⟩] := by
      have hb : ¬ ("b" : String) = "a" := by decide
      simp only [List.map_cons, List.map_nil]
      norm_num [MILESTONE_PADDING, EXPANDED_WIDTH, EMOJI_WIDTH]
      rw [if_neg hb]
      norm_num
    unfold layoutLandscapeMilestones
    rw [if_neg (by norm_num)]
    rw [hin]
    norm_num [layoutLandscapeMilestonesCore, collapseLoop, coreInit, sortByKey,
      insertByKey, runPass, runPassAux, placeTop, sortQ, gapSearch, overlapsX, maxTopOf,
      findCandidateIdx, isCollapseCandidate, minLeftP, collapseAt, modifyIdx,
      ROW_HEIGHT, MILESTONE_GAP, EXPANDED_WIDTH, COLLAPSED_WIDTH]
  · have h : ¬ ("b" : String) = "a" := by decide
    rw [if_neg h]
    norm_num [MILESTONE_PADDING, EXPANDED_WIDTH]

theorem litem_width_map (l : List LItem) :
    (runPass l).1.map (fun x => x.width) = l.map (fun x => x.width) := by
  have h := congrArg (List.map (fun s : ℚ × ℚ × Bool × Bool => s.2.1)) (runPass_strip l)
  rw [List.map_map, List.map_map] at h
  exact h

/-- Widths in the collapse loop stay in the two-element set
`{expandedWidth, collapsedWidth}`. -/
theorem collapseLoop_widths (opts : LOpts) :
    ∀ (fuel : ℕ) (layouts : List LItem),
      (∀ x ∈ layouts, x.width = opts.expandedWidth ∨ x.width = opts.collapsedWidth) →
      ∀ x ∈ (collapseLoop opts fuel layouts).layouts,
        x.width = opts.expandedWidth ∨ x.width = opts.collapsedWidth := by
  intro fuel
  have hpass : ∀ (l : List LItem),
      (∀ x ∈ l, x.width = opts.expandedWidth ∨ x.width = opts.collapsedWidth) →
      ∀ x ∈ (runPass l).1, x.width = opts.expandedWidth ∨ x.width = opts.collapsedWidth := by
    intro l hl x hx
    have hmem : x.width ∈ (runPass l).1.map (fun x => x.width) :=
      List.mem_map_of_mem _ hx
    rw [litem_width_map] at hmem
    obtain ⟨y, hy, hxy⟩ := List.mem_map.mp hmem
    rw [← hxy]
    exact hl y hy
  induction fuel with
  | zero => intro layouts h; exact h
  | succ fuel ih =>
    intro layouts h
    rw [collapseLoop]
    split
    · exact hpass layouts h
    · split
      · exact hpass layouts h
      · apply ih
        intro x hx
        unfold collapseAt at hx
        rcases mem_modifyIdx _ _ _ x hx with hmem | ⟨y, hy, rfl⟩
        · exact hpass layouts h x hmem
        · exact Or.inr rfl

/-- C7 amended: the wrapper derives each milestone's natural width from the
measured label (capped at `EXPANDED_WIDTH`), but the core overwrites every
width with the uniform `expandedWidth` before lane assignment, so each laid
out milestone ends with width `EXPANDED_WIDTH` (120) or, once collapsed,
`COLLAPSED_WIDTH` (24), independent of its measured text width. -/
theorem C7_width_amended (measure : String → ℚ) (hasEmojiFn : String → Bool)
    (milestones : List BaseMilestoneL) (containerWidth maxHeight : ℚ) :
    ∀ x ∈ layoutLandscapeMilestones measure hasEmojiFn milestones containerWidth maxHeight,
      x.width = EXPANDED_WIDTH ∨ x.width = COLLAPSED_WIDTH := by
  unfold layoutLandscapeMilestones
  split
  · intro x hx
    simp at hx
  · intro x hx
    unfold layoutLandscapeMilestonesCore at hx
    refine collapseLoop_widths ⟨maxHeight, EXPANDED_WIDTH, COLLAPSED_WIDTH⟩ _ _ ?_ x hx
    intro y hy
    unfold coreInit at hy
    obtain ⟨z, hz, rfl⟩ := List.mem_map.mp hy
    exact Or.inl rfl

theorem C7_width_amended_witness :
    ((⟨300, 120, false, 0, false⟩ : LItem)).width = EXPANDED_WIDTH ∨
    ((⟨300, 120, false, 0, false⟩ : LItem)).width = COLLAPSED_WIDTH :=
  C7_width_amended (fun _ => 40) (fun _ => false) [⟨"a", 30, false⟩] 1000 200
    ⟨300, 120, false, 0, false⟩
    (by norm_num [layoutLandscapeMilestones, layoutLandscapeMilestonesCore, collapseLoop,
      coreInit, sortByKey, insertByKey, runPass, runPassAux, placeTop, sortQ, gapSearch,
      overlapsX, maxTopOf, findCandidateIdx, isCollapseCandidate, minLeftP, collapseAt,
      modifyIdx, ROW_HEIGHT, MILESTONE_GAP, MILESTONE_PADDING, EXPANDED_WIDTH,
      COLLAPSED_WIDTH])

/-! ## Config validator (src/worker/src/services/validator.ts)

`JSON.parse` is modelled by passing an already parsed `Option Json` (`none`
for a syntax error).  The zod `configSchema` is modelled as a first-issue
checker following zod semantics for this schema: object fields in declaration
order, array items in order; an issue carries a path (object keys and array
indices, as in `issue.path`) and a message; type-mismatch messages are
representative stand-ins for zod's texts, the custom messages are the
source's.  String surgery (`path.join(".")` and the
`^milestones\.(\d+)\.(.+)$` regex) is implemented over the character lists
of the strings. -/

inductive Json where
  | str : String → Json
  | num : ℚ → Json
  | bool : Bool → Json
  | null : Json
  | arr : List Json → Json
  | obj : List (String × Json) → Json

inductive Seg where
  | key : String → Seg
  | idx : ℕ → Seg
  deriving DecidableEq, Repr

/-- JS object property lookup (first matching key of the parsed object). -/
def lookupField : List (String × Json) → String → Option Json
  | [], _ => none
  | (k, v) :: rest, keyName => if k = keyName then some v else lookupField rest keyName

/-- The `^\d{4}-\d{2}-\d{2}$` regex of `isoDateSchema`. -/
def isIsoDate (s : String) : Bool :=
  match s.data with
  | [a, b, c, d, e, f, g, h, i, j] =>
      a.isDigit && b.isDigit && c.isDigit && d.isDigit && (e == '-') &&
      f.isDigit && g.isDigit && (h == '-') && i.isDigit && j.isDigit
  | _ => false

def checkIsoDate (path : List Seg) (v : Json) : Option (List Seg × String) :=
  match v with
  | .str s => if isIsoDate s then none else some (path, "Expected YYYY-MM-DD format")
  | _ => some (path, "Expected string")

def checkRequiredIso (path : List Seg) (v : Option Json) : Option (List Seg × String) :=
  match v with
  | none => some (path, "Required")
  | some v => checkIsoDate path v

def checkOptionalIso (path : List Seg) (v : Option Json) : Option (List Seg × String) :=
  match v with
  | none => none
  | some v => checkIsoDate path v

def checkMinString (path : List Seg) (msg : String) (v : Option Json) :
    Option (List Seg × String) :=
  match v with
  | none => some (path, "Required")
  | some (.str s) => if s.length = 0 then some (path, msg) else none
  | some _ => some (path, "Expected string")

def checkOptionalString (path : List Seg) (v : Option Json) : Option (List Seg × String) :=
  match v with
  | none => none
  | some (.str _) => none
  | some _ => some (path, "Expected string")

/-- First issue of `milestoneSchema` (fields in declaration order). -/
def firstIssueMilestone (path : List Seg) (v : Json) : Option (List Seg × String) :=
  match v with
  | .obj fields =>
      (checkRequiredIso (path ++ [.key "date"]) (lookupField fields "date")).orElse fun _ =>
      (checkOptionalIso (path ++ [.key "endDate"]) (lookupField fields "endDate")).orElse fun _ =>
      (checkMinString (path ++ [.key "label"]) "Label is required"
        (lookupField fields "label")).orElse fun _ =>
      (checkMinString (path ++ [.key "emoji"]) "Emoji is required"
        (lookupField fields "emoji")).orElse fun _ =>
      (checkOptionalString (path ++ [.key "color"]) (lookupField fields "color")).orElse fun _ =>
      checkOptionalString (path ++ [.key "description"]) (lookupField fields "description")
  | _ => some (path, "Expected object")

def firstIssueMilestones (path : List Seg) : ℕ → List Json → Option (List Seg × String)
  | _, [] => none
  | i, v :: rest =>
      (firstIssueMilestone (path ++ [.idx i]) v).orElse fun _ =>
        firstIssueMilestones path (i + 1) rest

/-- First issue of `configSchema` (fields in declaration order). -/
def firstIssue (v : Json) : Option (List Seg × String) :=
  match v with
  | .obj fields =>
      (checkRequiredIso [.key "startDate"] (lookupField fields "startDate")).orElse fun _ =>
      (checkRequiredIso [.key "dueDate"] (lookupField fields "dueDate")).orElse fun _ =>
      (checkMinString [.key "todayEmoji"] "todayEmoji is required"
        (lookupField fields "todayEmoji")).orElse fun _ =>
      (match lookupField fields "milestones" with
        | none => some ([.key "milestones"], "Required")
        | some (.arr items) => firstIssueMilestones [.key "milestones"] 0 items
        | some _ => some ([.key "milestones"], "Expected array"))
  | _ => some ([], "Expected object")

/-! ### Decimal rendering of array indices (JS number-to-string in
`path.join(".")`) and the digit parse of the milestone-error regex -/

def digitChar (n : ℕ) : Char := Char.ofNat (48 + n)

def natToDigits : ℕ → ℕ → List ℕ
  | 0, _ => []
  | fuel + 1, n => if n < 10 then [n] else natToDigits fuel (n / 10) ++ [n % 10]

def natStr (n : ℕ) : String := ⟨(natToDigits (n + 1) n).map digitChar⟩

def digitsToNat (l : List ℕ) : ℕ := l.foldl (fun acc d => 10 * acc + d) 0

def charsToNat (cs : List Char) : ℕ := digitsToNat (cs.map (fun c => c.toNat - 48))

def segStr : Seg → String
  | .key s => s
  | .idx n => natStr n

/-- `Array.prototype.join(".")`. -/
def joinDot : List String → String
  | [] => ""
  | [s] => s
  | s :: rest => s ++ "." ++ joinDot rest

/-- The `path.match(/^milestones\.(\d+)\.(.+)$/)` test of the validator:
after the literal prefix, a maximal nonempty digit run, a literal dot, and a
nonempty remainder. -/
def milestoneMatch (s : String) : Option (ℕ × String) :=
  match s.data with
  | 'm' :: 'i' :: 'l' :: 'e' :: 's' :: 't' :: 'o' :: 'n' :: 'e' :: 's' :: '.' :: rest =>
      match rest.takeWhile Char.isDigit, rest.dropWhile Char.isDigit with
      | [], _ => none
      | _ :: _, '.' :: [] => none
      | d :: ds, '.' :: f1 :: fs => some (charsToNat (d :: ds), ⟨f1 :: fs⟩)
      | _ :: _, _ => none
  | _ => none

structure ValidationResult where
  valid : Bool
  error : Option String
  deriving DecidableEq, Repr

/-- `validateConfig` (validator.ts lines 31-67). -/
def validateConfig (parsed : Option Json) : ValidationResult :=
  match parsed with
  | none => ⟨false, some "Invalid JSON syntax"⟩
  | some p =>
      match firstIssue p with
      | none => ⟨true, none⟩
      | some (path, msg) =>
          match milestoneMatch (joinDot (path.map segStr)) with
          | some (n, fieldName) =>
              ⟨false, some ("Milestone " ++ natStr (n + 1) ++ " " ++ fieldName ++ ": " ++ msg)⟩
          | none =>
              ⟨false, some (if joinDot (path.map segStr) = "" then msg
                else joinDot (path.map segStr) ++ ": " ++ msg)⟩

/-! ### Roundtrip of the decimal rendering -/

theorem natToDigits_lt_ten : ∀ (fuel n : ℕ), ∀ d ∈ natToDigits fuel n, d < 10 := by
  intro fuel
  induction fuel with
  | zero => intro n d hd; simp [natToDigits] at hd
  | succ fuel ih =>
    intro n d hd
    rw [natToDigits] at hd
    by_cases hn : n < 10
    · rw [if_pos hn] at hd
      simp only [List.mem_singleton] at hd
      omega
    · rw [if_neg hn, List.mem_append] at hd
      rcases hd with hd | hd
      · exact ih _ d hd
      · simp only [List.mem_singleton] at hd
        omega

theorem natToDigits_ne_nil (fuel n : ℕ) : natToDigits (fuel + 1) n ≠ [] := by
  rw [natToDigits]
  by_cases hn : n < 10
  · rw [if_pos hn]; simp
  · rw [if_neg hn]; simp

theorem digitsToNat_append_single (l : List ℕ) (d : ℕ) :
    digitsToNat (l ++ [d]) = 10 * digitsToNat l + d := by
  unfold digitsToNat
  rw [List.foldl_append]
  rfl

theorem natToDigits_correct : ∀ (fuel n : ℕ), n ≤ fuel →
    digitsToNat (natToDigits (fuel + 1) n) = n := by
  intro fuel
  induction fuel with
  | zero =>
    intro n hn
    have h0 : n = 0 := Nat.le_zero.mp hn
    subst h0
    rfl
  | succ fuel ih =>
    intro n hn
    rw [natToDigits]
    by_cases h10 : n < 10
    · rw [if_pos h10]
      simp [digitsToNat]
    · rw [if_neg h10, digitsToNat_append_single, ih (n / 10) (by omega)]
      omega

theorem digitChar_spec : ∀ d < 10, ((digitChar d).toNat - 48 = d ∧ (digitChar d).isDigit = true) := by
  decide

theorem map_digit_roundtrip (l : List ℕ) (h : ∀ d ∈ l, d < 10) :
    (l.map digitChar).map (fun c => c.toNat - 48) = l := by
  induction l with
  | nil => rfl
  | cons d ds ih =>
    simp only [List.map_cons]
    rw [ih (fun x hx => h x (List.mem_cons_of_mem _ hx))]
    have hd := (digitChar_spec d (h d (List.mem_cons_self d ds))).1
    rw [hd]

theorem charsToNat_natStr (n : ℕ) : charsToNat (natStr n).data = n := by
  show charsToNat ((natToDigits (n + 1) n).map digitChar) = n
  unfold charsToNat
  rw [map_digit_roundtrip _ (natToDigits_lt_ten _ _)]
  exact natToDigits_correct n n (le_refl n)

theorem natStr_digits (n : ℕ) : ∀ c ∈ (natStr n).data, c.isDigit = true := by
  intro c hc
  have hc2 : c ∈ (natToDigits (n + 1) n).map digitChar := hc
  rw [List.mem_map] at hc2
  obtain ⟨d, hd, rfl⟩ := hc2
  exact (digitChar_spec d (natToDigits_lt_ten _ _ d hd)).2

theorem natStr_ne_nil (n : ℕ) : (natStr n).data ≠ [] := by
  show (natToDigits (n + 1) n).map digitChar ≠ []
  simp only [ne_eq, List.map_eq_nil_iff]
  exact natToDigits_ne_nil n n

/-! ### The takeWhile/dropWhile split of a digit run before a dot -/

theorem digit_run_split : ∀ (l1 tail : List Char), (∀ c ∈ l1, c.isDigit = true) →
    (l1 ++ '.' :: tail).takeWhile Char.isDigit = l1 ∧
    (l1 ++ '.' :: tail).dropWhile Char.isDigit = '.' :: tail := by
  intro l1
  induction l1 with
  | nil =>
    intro tail _
    constructor
    · rw [List.nil_append, List.takeWhile_cons]
      simp
    · rw [List.nil_append, List.dropWhile_cons]
      simp
  | cons c cs ih =>
    intro tail h
    have hc : c.isDigit = true := h c (List.mem_cons_self c cs)
    have hcs := ih tail (fun x hx => h x (List.mem_cons_of_mem _ hx))
    constructor
    · rw [List.cons_append, List.takeWhile_cons, hc]
      simp only [if_true]
      rw [hcs.1]
    · rw [List.cons_append, List.dropWhile_cons, hc]
      simp only [if_true]
      exact hcs.2

/-! ### Computing `milestoneMatch` on a rendered milestone path -/

theorem milestoneMatch_data (rest : List Char) (s : String)
    (hs : s.data = 'm' :: 'i' :: 'l' :: 'e' :: 's' :: 't' :: 'o' :: 'n' :: 'e' :: 's'
      :: '.' :: rest) :
    milestoneMatch s =
      match rest.takeWhile Char.isDigit, rest.dropWhile Char.isDigit with
      | [], _ => none
      | _ :: _, '.' :: [] => none
      | d :: ds, '.' :: f1 :: fs => some (charsToNat (d :: ds), ⟨f1 :: fs⟩)
      | _ :: _, _ => none := by
  rw [milestoneMatch, hs]
  rfl

theorem milestoneMatch_join (i : ℕ) (f : String) (hf : f.data ≠ []) :
    milestoneMatch (joinDot ["milestones", natStr i, f]) = some (i, f) := by
  have h1 : ("milestones" : String).data
      = ['m', 'i', 'l', 'e', 's', 't', 'o', 'n', 'e', 's'] := by decide
  have h2 : ("." : String).data = ['.'] := by decide
  have hdata : (joinDot ["milestones", natStr i, f]).data
      = 'm' :: 'i' :: 'l' :: 'e' :: 's' :: 't' :: 'o' :: 'n' :: 'e' :: 's' :: '.' ::
        ((natStr i).data ++ '.' :: f.data) := by
    show (("milestones" : String) ++ "." ++ (natStr i ++ "." ++ f)).data = _
    rw [String.data_append, String.data_append, String.data_append, String.data_append,
      h1, h2]
    simp
  rw [milestoneMatch_data _ _ hdata]
  have hsplit := digit_run_split (natStr i).data f.data (natStr_digits i)
  rw [hsplit.1, hsplit.2]
  rcases hd : (natStr i).data with _ | ⟨d, ds⟩
  · exact absurd hd (natStr_ne_nil i)
  · rcases hff : f.data with _ | ⟨f1, fs⟩
    · exact absurd hff hf
    · show some (charsToNat (d :: ds), (⟨f1 :: fs⟩ : String)) = some (i, f)
      rw [← hd, ← hff, charsToNat_natStr]

/-! ### Reduction of `validateConfig` on a reported first issue -/

theorem validateConfig_of_issue (j : Json) (path : List Seg) (msg : String)
    (h : firstIssue j = some (path, msg)) :
    validateConfig (some j) =
      match milestoneMatch (joinDot (path.map segStr)) with
      | some (n, fieldName) =>
          ⟨false, some ("Milestone " ++ natStr (n + 1) ++ " " ++ fieldName ++ ": " ++ msg)⟩
      | none =>
          ⟨false, some (if joinDot (path.map segStr) = "" then msg
            else joinDot (path.map segStr) ++ ": " ++ msg)⟩ := by
  simp only [validateConfig]
  rw [h]

theorem validateConfig_of_valid (j : Json) (h : firstIssue j = none) :
    validateConfig (some j) = ⟨true, none⟩ := by
  simp only [validateConfig]
  rw [h]

/-- C9: a config whose first schema issue is at `milestones.i.F` is reported
as `valid = false` with the error string exactly
`"Milestone N F: message"` for `N = i + 1`; an unparsable config yields
`valid = false` with `"Invalid JSON syntax"` and no exception (the embedding
is total); a config with no issue yields `valid = true`. -/
theorem C9_validator :
    validateConfig none = ⟨false, some "Invalid JSON syntax"⟩ ∧
    (∀ j : Json, firstIssue j = none → validateConfig (some j) = ⟨true, none⟩) ∧
    (∀ (j : Json) (i : ℕ) (f msg : String),
      firstIssue j = some ([.key "milestones", .idx i, .key f], msg) →
      f.data ≠ [] →
      validateConfig (some j)
        = ⟨false, some ("Milestone " ++ natStr (i + 1) ++ " " ++ f ++ ": " ++ msg)⟩) := by
  refine ⟨rfl, validateConfig_of_valid, ?_⟩
  intro j i f msg h hf
  rw [validateConfig_of_issue j _ msg h]
  have hmap : ([Seg.key "milestones", Seg.idx i, Seg.key f].map segStr)
      = ["milestones", natStr i, f] := rfl
  rw [hmap, milestoneMatch_join i f hf]

theorem C9_validator_witness :
    validateConfig (some (Json.obj [("startDate", Json.str "2025-11-20"),
        ("dueDate", Json.str "2026-08-20"), ("todayEmoji", Json.str "X"),
        ("milestones", Json.arr [Json.obj [("label", Json.str "Test"),
          ("emoji", Json.str "Y")]])]))
      = ⟨false, some "Milestone 1 date: Required"⟩ ∧
    validateConfig none = ⟨false, some "Invalid JSON syntax"⟩ ∧
    validateConfig (some (Json.obj [("startDate", Json.str "2025-11-20"),
        ("dueDate", Json.str "2026-08-20"), ("todayEmoji", Json.str "X"),
        ("milestones", Json.arr [Json.obj [("date", Json.str "2026-01-01"),
          ("label", Json.str "T"), ("emoji", Json.str "Y")]])]))
      = ⟨true, none⟩ :=
  ⟨(C9_validator.2.2 _ 0 "date" "Required" (by decide) (by decide)).trans (by decide),
   C9_validator.1,
   C9_validator.2.1 _ (by decide)⟩

end Meanwhile
